import Mathlib

/-!
Verification of the Huffman tree builder (`rhsm/huffman.py`).

The Python module defines a class `HuffmanNode` with mutable fields
`weight`, `value`, `left`, `right`, `parent`, a `combine` constructor that
merges two nodes (mutating only the children's `parent` fields), a
`build_tree` class method that runs the standard greedy priority-queue
merge with an insertion counter for tie-breaking, a `code` property that
walks parent pointers to produce the bit string of a leaf, and weight-based
comparison operators.

Shallow embedding choices:
* Nodes live in an arena (`List HuffmanNode`); a node id is its index.
  Python object identity becomes id equality, and mutation of a `parent`
  field becomes a functional update of the arena.  `combine` allocates the
  new node at the end of the arena.
* Python `int` is `Int`; Python strings of code bits are `List Char`.
* The dynamic `value` payload (`None` / int / str) is the inductive `Value`.
* Fallible operations return `Except PyError`; `PyError` names the Python
  exception class raised (`IndexError` from `heappop` on an empty list,
  `AttributeError` from `code` / `direction_from_parent`, `TypeError` from
  comparing an int with a non-int).
* `heapq` is Python library code, not part of this repository; it is
  modelled by its documented behaviour: `heappop` removes and returns the
  smallest element of the queue, where queue entries `(node, count)` are
  compared lexicographically by `(weight, count)` (tuple comparison uses
  `HuffmanNode.__eq__` / `__lt__`, which compare by `weight`).  `popMin` is
  one concrete realization; the relation `PopRel` captures any realization,
  and determinism of the whole construction over `PopRel` is proved.
-/

/-- Python values that can sit in the `value` field: `None`, an int, or a
string (the module's type hint is `Union[int, str, dict]`; a string stands
for any non-integer payload in the claims we check). -/
inductive Value where
  | vnone : Value
  | vint : Int → Value
  | vstr : String → Value
deriving DecidableEq, Repr

/-- The Python exception classes that the modelled operations can raise. -/
inductive PyError where
  | attributeError : PyError
  | indexError : PyError
  | typeError : PyError
deriving DecidableEq, Repr

/-- One vertex of the Huffman tree: the fields of the Python class
`HuffmanNode`.  `left`, `right`, `parent` hold arena ids. -/
structure HuffmanNode where
  weight : Int
  value : Value
  left : Option Nat
  right : Option Nat
  parent : Option Nat
deriving DecidableEq, Repr

instance : Inhabited HuffmanNode := ⟨⟨0, Value.vnone, none, none, none⟩⟩

/-- Read a node from the arena (ids are list indices). -/
def getN (s : List HuffmanNode) (i : Nat) : HuffmanNode :=
  s.getD i default

/-- `HuffmanNode.is_leaf`: true iff `left` and `right` are `None`. -/
def HuffmanNode.is_leaf (n : HuffmanNode) : Bool :=
  n.right.isNone && n.left.isNone

/-- The character `direction_from_parent` produces for node `i` whose
parent is `p`: `'0'` if `parent.left is self` (id equality models Python
object identity), else `'1'`. -/
def dirChar (s : List HuffmanNode) (p i : Nat) : Char :=
  if (getN s p).left = some i then '0' else '1'

/-- `HuffmanNode.direction_from_parent`: raises `AttributeError` when the
node has no parent, else returns the direction character. -/
def direction_from_parent (s : List HuffmanNode) (i : Nat) :
    Except PyError Char :=
  match (getN s i).parent with
  | none => Except.error PyError.attributeError
  | some p => Except.ok (dirChar s p i)

/-- The parent-pointer walk inside `HuffmanNode.code`: starting at node
`i`, while the current node has a parent, record its direction (inserted
at the front, here: appended after the recursive result) and move up.
`fuel` bounds the walk; on every arena whose parent pointers increase
(`ParentWF`) a fuel of `s.length + 1` is never exhausted. -/
def codeWalk (s : List HuffmanNode) : Nat → Nat → Option (List Char)
  | 0, _ => none
  | fuel + 1, i =>
    match (getN s i).parent with
    | none => some []
    | some p => (codeWalk s fuel p).map (fun w => w ++ [dirChar s p i])

/-- `HuffmanNode.code`: raises `AttributeError` on a non-leaf, else walks
parent pointers collecting directions from the root down to the node. -/
def code (s : List HuffmanNode) (i : Nat) : Except PyError (List Char) :=
  if (getN s i).is_leaf then
    match codeWalk s (s.length + 1) i with
    | some w => Except.ok w
    | none => Except.error PyError.attributeError
  else Except.error PyError.attributeError

/-- Set the `parent` field of node `i` (the one mutation in the module). -/
def setParent (s : List HuffmanNode) (i pid : Nat) : List HuffmanNode :=
  s.set i { getN s i with parent := some pid }

/-- `HuffmanNode.combine`: allocate a node of weight `left.weight +
right.weight` with value `None` and children `l`, `r`, then set both
children's `parent` to the new node.  Returns the new arena and the new
node's id. -/
def combine (s : List HuffmanNode) (l r : Nat) : List HuffmanNode × Nat :=
  let nid := s.length
  let node : HuffmanNode :=
    ⟨(getN s l).weight + (getN s r).weight, Value.vnone, some l, some r, none⟩
  (setParent (setParent s l nid) r nid ++ [node], nid)

/-- Strict order on queue keys `(weight, count)`: Python's tuple comparison
of `(node, count)` pairs, which compares nodes by `weight` (via `__eq__` /
`__lt__`) and breaks ties by `count`. -/
def ltKey (a b : Int × Nat) : Prop :=
  a.1 < b.1 ∨ (a.1 = b.1 ∧ a.2 < b.2)

instance (a b : Int × Nat) : Decidable (ltKey a b) := by
  unfold ltKey; infer_instance

/-- The key of a queue entry `(id, count)`. -/
def entryKey (s : List HuffmanNode) (e : Nat × Nat) : Int × Nat :=
  ((getN s e.1).weight, e.2)

/-- `heapq.heappop` modelled by its documented behaviour: remove and return
the smallest entry of the queue under the `(weight, count)` order.  Returns
`none` on an empty queue (`IndexError` in Python). -/
def popMin (s : List HuffmanNode) :
    List (Nat × Nat) → Option ((Nat × Nat) × List (Nat × Nat))
  | [] => none
  | e :: es =>
    match popMin s es with
    | none => some (e, [])
    | some (m, rest) =>
      if ltKey (entryKey s m) (entryKey s e) then some (m, e :: rest)
      else some (e, es)

/-- The loop of `build_tree`: pop the minimum (an empty queue raises
`IndexError`, carrying the arena at failure time), try to pop a second
node (failure means the first pop produced the root, which is returned),
else combine the two and push the result with a fresh count.  `fuel`
(one more than the queue length at entry) is an artifact of the
embedding; each iteration shrinks the queue by one, so it is never
exhausted. -/
def buildLoop : Nat → List HuffmanNode → List (Nat × Nat) → Nat →
    Except (PyError × List HuffmanNode) (List HuffmanNode × Nat)
  | 0, s, _, _ => Except.error (PyError.indexError, s)
  | fuel + 1, s, q, c =>
    match popMin s q with
    | none => Except.error (PyError.indexError, s)
    | some (l, q1) =>
      match popMin s q1 with
      | none => Except.ok (s, l.1)
      | some (r, q2) =>
        let sc := combine s l.1 r.1
        buildLoop fuel sc.1 (q2 ++ [(sc.2, c)]) (c + 1)

/-- The initial queue of `build_tree`: entry `i` of the input list is
paired with count `i` (the counter starts at 0 and is bumped once per
insertion). -/
def initQ (ns : List HuffmanNode) : List (Nat × Nat) :=
  (List.range ns.length).map (fun i => (i, i))

/-- `HuffmanNode.build_tree`: arena = the input nodes, queue = the nodes
paired with counts `0, 1, ...`, counter continues from `ns.length`. -/
def build_tree (ns : List HuffmanNode) :
    Except (PyError × List HuffmanNode) (List HuffmanNode × Nat) :=
  buildLoop (ns.length + 1) ns (initQ ns) ns.length

/-- Arena invariant: every parent pointer goes to a strictly larger, valid
id.  `build_tree` establishes it because `combine` allocates parents after
their children. -/
def ParentWF (s : List HuffmanNode) : Prop :=
  ∀ i, i < s.length → ∀ p, (getN s i).parent = some p →
    i < p ∧ p < s.length

/-- The right-hand operand of a comparison: an arbitrary Python object,
of which the comparison methods only inspect the `weight` attribute.
`weight = none` models an object with no `weight` attribute; `some v`
models a present attribute of arbitrary type. -/
structure PyObj where
  weight : Option Value

/-- Python equality between the int `w` and the value `v`: an int equals
an int of the same value; `int == None` and `int == str` are `False`. -/
def pyIntEqVal (w : Int) : Value → Bool
  | Value.vint j => w == j
  | _ => false

/-- Python `int < value`: defined for ints, `TypeError` otherwise
(`int < None`, `int < str` raise). -/
def pyIntLtVal (w : Int) : Value → Except PyError Bool
  | Value.vint j => Except.ok (decide (w < j))
  | _ => Except.error PyError.typeError

/-- `HuffmanNode.__lt__`: `self.weight < other.weight`; looking up a
missing attribute raises `AttributeError`. -/
def lt_op (self : HuffmanNode) (other : PyObj) : Except PyError Bool :=
  match other.weight with
  | none => Except.error PyError.attributeError
  | some v => pyIntLtVal self.weight v

/-- `HuffmanNode.__le__`. -/
def le_op (self : HuffmanNode) (other : PyObj) : Except PyError Bool :=
  match other.weight with
  | none => Except.error PyError.attributeError
  | some v =>
    match v with
    | Value.vint j => Except.ok (decide (self.weight ≤ j))
    | _ => Except.error PyError.typeError

/-- `HuffmanNode.__gt__`. -/
def gt_op (self : HuffmanNode) (other : PyObj) : Except PyError Bool :=
  match other.weight with
  | none => Except.error PyError.attributeError
  | some v =>
    match v with
    | Value.vint j => Except.ok (decide (j < self.weight))
    | _ => Except.error PyError.typeError

/-- `HuffmanNode.__ge__`. -/
def ge_op (self : HuffmanNode) (other : PyObj) : Except PyError Bool :=
  match other.weight with
  | none => Except.error PyError.attributeError
  | some v =>
    match v with
    | Value.vint j => Except.ok (decide (j ≤ self.weight))
    | _ => Except.error PyError.typeError

/-- `HuffmanNode.__eq__`: `if not hasattr(other, "weight"): return False`,
else `self.weight == other.weight`.  Never raises. -/
def eq_op (self : HuffmanNode) (other : PyObj) : Except PyError Bool :=
  match other.weight with
  | none => Except.ok false
  | some v => Except.ok (pyIntEqVal self.weight v)

/-- `HuffmanNode.__ne__`: `if not hasattr(other, "weight"): return True`,
else `self.weight != other.weight`.  Never raises. -/
def ne_op (self : HuffmanNode) (other : PyObj) : Except PyError Bool :=
  match other.weight with
  | none => Except.ok true
  | some v => Except.ok (!pyIntEqVal self.weight v)

/-- `HuffmanNode.__hash__` as written in the source: `return self.value`,
whatever type that is. -/
def hash_op (self : HuffmanNode) : Value :=
  self.value

/-- Calling `hash(node)` in Python: the interpreter requires `__hash__` to
return an int and raises `TypeError` otherwise (in particular when
`value` is `None`, as on every internal node, or a string). -/
def pyHashCall (self : HuffmanNode) : Except PyError Int :=
  match hash_op self with
  | Value.vint i => Except.ok i
  | _ => Except.error PyError.typeError

/-- `IsHTree s i S`: in arena `s`, node `i` is the root of a well-formed
binary tree whose members are exactly the ids in `S`: leaves have no
children; internal nodes have both children, each child's `parent` field
points back to the node, and the two subtrees are disjoint and do not
contain the node itself. -/
inductive IsHTree (s : List HuffmanNode) : Nat → Finset Nat → Prop where
  | leaf {i : Nat} : i < s.length → (getN s i).left = none →
      (getN s i).right = none → IsHTree s i {i}
  | node {i l r : Nat} {A B : Finset Nat} : i < s.length →
      (getN s i).left = some l → (getN s i).right = some r →
      IsHTree s l A → IsHTree s r B →
      (getN s l).parent = some i → (getN s r).parent = some i →
      Disjoint A B → i ∉ A → i ∉ B →
      IsHTree s i (insert i (A ∪ B))

/-- `PartOf s roots U`: the trees rooted at `roots` (each root having no
parent) have pairwise disjoint member sets whose union is `U`.  The loop
invariant of `build_tree` partitions the whole arena this way among the
queue entries. -/
inductive PartOf (s : List HuffmanNode) : List Nat → Finset Nat → Prop where
  | nil : PartOf s [] ∅
  | cons {i : Nat} {is : List Nat} {S T : Finset Nat} :
      IsHTree s i S → (getN s i).parent = none → Disjoint S T →
      PartOf s is T → PartOf s (i :: is) (S ∪ T)

/-- Reachability from `i` to `j` by following `left` / `right` references
in arena `s`. -/
inductive Reaches (s : List HuffmanNode) : Nat → Nat → Prop where
  | refl (i : Nat) : Reaches s i i
  | viaLeft {i j k : Nat} : Reaches s i j → (getN s j).left = some k →
      Reaches s i k
  | viaRight {i j k : Nat} : Reaches s i j → (getN s j).right = some k →
      Reaches s i k

/-- Parent-pointer walk from `j` stopping at `top`: the directions along
the path from `top` down to `j` (`none` if the fuel runs out or a node
other than `top` has no parent). -/
def walkTo (s : List HuffmanNode) (top : Nat) : Nat → Nat → Option (List Char)
  | 0, _ => none
  | fuel + 1, j =>
    if j = top then some []
    else
      match (getN s j).parent with
      | none => none
      | some p => (walkTo s top fuel p).map (fun w => w ++ [dirChar s p j])

/-- `isPrefOf a b`: `a` is a prefix of `b`. -/
def isPrefOf (a b : List Char) : Prop :=
  ∃ t, a ++ t = b

/-- The loop invariant of `build_tree` relating the original input `ns`
to the current arena `s`, queue `q` and counter `c`. -/
structure LoopInv (ns s : List HuffmanNode) (q : List (Nat × Nat)) (c : Nat) :
    Prop where
  hlen : ns.length ≤ s.length
  hcnt : c = s.length
  horig : ∀ i, (h : i < ns.length) →
    (getN s i).weight = (ns.get ⟨i, h⟩).weight ∧
    (getN s i).value = (ns.get ⟨i, h⟩).value ∧
    (getN s i).left = none ∧ (getN s i).right = none
  hinternal : ∀ j, ns.length ≤ j → j < s.length → (getN s j).left ≠ none
  hweight : ∀ j, j < s.length → ∀ l r, (getN s j).left = some l →
    (getN s j).right = some r →
    (getN s j).weight = (getN s l).weight + (getN s r).weight
  hchild : ∀ j, j < s.length → ∀ a,
    ((getN s j).left = some a ∨ (getN s j).right = some a) → a < s.length
  hpwf : ParentWF s
  hnodup : (q.map Prod.snd).Nodup
  hcbound : ∀ e ∈ q, e.2 < c
  hpart : PartOf s (q.map Prod.fst) (Finset.range s.length)

/-- What holds of the arena `s` and root id `root` when `build_tree`
returns, for input `ns` of leaves. -/
structure Final (ns s : List HuffmanNode) (root : Nat) : Prop where
  htree : IsHTree s root (Finset.range s.length)
  hrootpar : (getN s root).parent = none
  hlen : s.length + 1 = 2 * ns.length
  horig : ∀ i, (h : i < ns.length) →
    (getN s i).weight = (ns.get ⟨i, h⟩).weight ∧
    (getN s i).value = (ns.get ⟨i, h⟩).value ∧
    (getN s i).left = none ∧ (getN s i).right = none
  hinternal : ∀ j, ns.length ≤ j → j < s.length → (getN s j).left ≠ none
  hweight : ∀ j, j < s.length → ∀ l r, (getN s j).left = some l →
    (getN s j).right = some r →
    (getN s j).weight = (getN s l).weight + (getN s r).weight
  hpwf : ParentWF s

/-- The states `(arena, queue, counter)` that the loop of `build_tree`
reaches when started on input `ns`. -/
inductive Reach (ns : List HuffmanNode) :
    List HuffmanNode → List (Nat × Nat) → Nat → Prop where
  | init : Reach ns ns (initQ ns) ns.length
  | step {s : List HuffmanNode} {q q1 q2 : List (Nat × Nat)}
      {c : Nat} {l r : Nat × Nat} :
      Reach ns s q c → popMin s q = some (l, q1) →
      popMin s q1 = some (r, q2) →
      Reach ns (combine s l.1 r.1).1
        (q2 ++ [((combine s l.1 r.1).2, c)]) (c + 1)

/-- Non-strict order on queue entries used by the abstract heap
specification. -/
def keyLe (s : List HuffmanNode) (a b : Nat × Nat) : Prop :=
  (getN s a.1).weight < (getN s b.1).weight ∨
    ((getN s a.1).weight = (getN s b.1).weight ∧ a.2 ≤ b.2)

/-- Abstract specification of `heapq.heappop`: some minimal entry (under
weight, ties by count) is removed.  Any correct binary-heap implementation
satisfies this and nothing more; `popMin` is one realization. -/
def PopRel (s : List HuffmanNode) (q : List (Nat × Nat)) (e : Nat × Nat)
    (q' : List (Nat × Nat)) : Prop :=
  e ∈ q ∧ (∀ y ∈ q, keyLe s e y) ∧ q.Perm (e :: q')

/-- The run of `build_tree` with the heap behaviour left abstract
(`PopRel` in place of `popMin`): from state `(s, q, c)` the result
`(arena, root)` is produced. -/
inductive BuildRel :
    List HuffmanNode → List (Nat × Nat) → Nat →
    List HuffmanNode × Nat → Prop where
  | root {s : List HuffmanNode} {q : List (Nat × Nat)} {c : Nat}
      {l : Nat × Nat} :
      PopRel s q l [] → BuildRel s q c (s, l.1)
  | step {s : List HuffmanNode} {q q1 q2 : List (Nat × Nat)} {c : Nat}
      {l r : Nat × Nat} {out : List HuffmanNode × Nat} :
      PopRel s q l q1 → PopRel s q1 r q2 →
      BuildRel (combine s l.1 r.1).1
        (q2 ++ [((combine s l.1 r.1).2, c)]) (c + 1) out →
      BuildRel s q c out

/-- All-leaves hypothesis on the input list of `build_tree`. -/
def AllLeaves (ns : List HuffmanNode) : Prop :=
  ∀ n ∈ ns, n.left = none ∧ n.right = none ∧ n.parent = none

theorem keyLe_refl (s : List HuffmanNode) (a : Nat × Nat) : keyLe s a a := by
  unfold keyLe; omega

theorem keyLe_trans {s : List HuffmanNode} {a b c : Nat × Nat}
    (h1 : keyLe s a b) (h2 : keyLe s b c) : keyLe s a c := by
  unfold keyLe at *; omega

theorem keyLe_of_not_ltKey {s : List HuffmanNode} {a b : Nat × Nat}
    (h : ¬ ltKey (entryKey s a) (entryKey s b)) : keyLe s b a := by
  unfold ltKey entryKey at h; unfold keyLe; omega

theorem keyLe_of_ltKey {s : List HuffmanNode} {a b : Nat × Nat}
    (h : ltKey (entryKey s a) (entryKey s b)) : keyLe s a b := by
  unfold ltKey entryKey at h; unfold keyLe; omega

theorem popMin_eq_none {s : List HuffmanNode} {q : List (Nat × Nat)} :
    popMin s q = none ↔ q = [] := by
  cases q with
  | nil => simp [popMin]
  | cons e es =>
    cases h : popMin s es with
    | none => simp [popMin, h]
    | some p =>
      obtain ⟨m, rest⟩ := p
      simp only [popMin, h]
      split <;> simp

theorem popMin_perm {s : List HuffmanNode} {q q' : List (Nat × Nat)}
    {e : Nat × Nat} (h : popMin s q = some (e, q')) : q.Perm (e :: q') := by
  induction q generalizing e q' with
  | nil => simp [popMin] at h
  | cons a as ih =>
    cases has : popMin s as with
    | none =>
      have hnil : as = [] := popMin_eq_none.mp has
      subst hnil
      simp only [popMin] at h
      injection h with h
      injection h with h1 h2
      subst h1; subst h2
      exact List.Perm.refl _
    | some p =>
      obtain ⟨m, rest⟩ := p
      simp only [popMin, has] at h
      by_cases hlt : ltKey (entryKey s m) (entryKey s a)
      · rw [if_pos hlt] at h
        injection h with h
        injection h with h1 h2
        subst h1; subst h2
        exact ((ih has).cons a).trans (List.Perm.swap _ _ _)
      · rw [if_neg hlt] at h
        injection h with h
        injection h with h1 h2
        subst h1; subst h2
        exact List.Perm.refl _

theorem popMin_min {s : List HuffmanNode} {q q' : List (Nat × Nat)}
    {e : Nat × Nat} (h : popMin s q = some (e, q')) :
    ∀ y ∈ q, keyLe s e y := by
  induction q generalizing e q' with
  | nil => simp [popMin] at h
  | cons a as ih =>
    cases has : popMin s as with
    | none =>
      have hnil : as = [] := popMin_eq_none.mp has
      subst hnil
      simp only [popMin] at h
      injection h with h
      injection h with h1 h2
      subst h1
      intro y hy
      simp at hy
      subst hy
      exact keyLe_refl s y
    | some p =>
      obtain ⟨m, rest⟩ := p
      simp only [popMin, has] at h
      by_cases hlt : ltKey (entryKey s m) (entryKey s a)
      · rw [if_pos hlt] at h
        injection h with h
        injection h with h1 h2
        subst h1
        intro y hy
        rcases List.mem_cons.mp hy with hy | hy
        · subst hy; exact keyLe_of_ltKey hlt
        · exact ih has y hy
      · rw [if_neg hlt] at h
        injection h with h
        injection h with h1 h2
        subst h1
        intro y hy
        rcases List.mem_cons.mp hy with hy | hy
        · subst hy; exact keyLe_refl s y
        · exact keyLe_trans (keyLe_of_not_ltKey hlt) (ih has y hy)

theorem popMin_mem {s : List HuffmanNode} {q q' : List (Nat × Nat)}
    {e : Nat × Nat} (h : popMin s q = some (e, q')) : e ∈ q :=
  (popMin_perm h).mem_iff.mpr (List.mem_cons_self e q')

theorem popMin_length {s : List HuffmanNode} {q q' : List (Nat × Nat)}
    {e : Nat × Nat} (h : popMin s q = some (e, q')) :
    q.length = q'.length + 1 := by
  have := (popMin_perm h).length_eq
  simpa using this

theorem popMin_popRel {s : List HuffmanNode} {q q' : List (Nat × Nat)}
    {e : Nat × Nat} (h : popMin s q = some (e, q')) : PopRel s q e q' :=
  ⟨popMin_mem h, popMin_min h, popMin_perm h⟩

theorem getN_set_self {s : List HuffmanNode} {i : Nat} {n : HuffmanNode}
    (h : i < s.length) : getN (s.set i n) i = n := by
  unfold getN
  rw [List.getD_eq_getElem _ _ (by simpa using h)]
  exact List.getElem_set_self _

theorem getN_set_other {s : List HuffmanNode} {i j : Nat} {n : HuffmanNode}
    (h : j ≠ i) : getN (s.set i n) j = getN s j := by
  unfold getN
  by_cases hj : j < s.length
  · rw [List.getD_eq_getElem _ _ (by simpa using hj),
      List.getD_eq_getElem _ _ hj]
    exact List.getElem_set_ne (fun he => h he.symm) _
  · rw [List.getD_eq_default _ _ (by simpa using (by omega : s.length ≤ j)),
      List.getD_eq_default _ _ (by omega)]

theorem getN_append_lt {s : List HuffmanNode} {x : HuffmanNode} {j : Nat}
    (h : j < s.length) : getN (s ++ [x]) j = getN s j :=
  List.getD_append _ _ _ _ h

theorem getN_append_self {s : List HuffmanNode} {x : HuffmanNode} :
    getN (s ++ [x]) s.length = x := by
  unfold getN
  rw [List.getD_eq_getElem _ _ (by simp)]
  simp

theorem getN_append_at {s : List HuffmanNode} {x : HuffmanNode} {j : Nat}
    (h : j = s.length) : getN (s ++ [x]) j = x := by
  subst h; exact getN_append_self

theorem combine_snd (s : List HuffmanNode) (l r : Nat) :
    (combine s l r).2 = s.length := rfl

theorem combine_length (s : List HuffmanNode) (l r : Nat) :
    (combine s l r).1.length = s.length + 1 := by
  simp [combine, setParent]

theorem combine_getN_new {s : List HuffmanNode} {l r : Nat}
    (hl : l < s.length) (hr : r < s.length) :
    getN (combine s l r).1 s.length =
      ⟨(getN s l).weight + (getN s r).weight, Value.vnone,
        some l, some r, none⟩ := by
  unfold combine
  simp only
  exact getN_append_at (by simp [setParent])

theorem combine_getN_left {s : List HuffmanNode} {l r : Nat}
    (hl : l < s.length) (hlr : l ≠ r) :
    getN (combine s l r).1 l =
      { getN s l with parent := some s.length } := by
  unfold combine
  simp only
  rw [getN_append_lt (by simp [setParent]; omega)]
  unfold setParent
  rw [getN_set_other hlr, getN_set_self hl]

theorem combine_getN_right {s : List HuffmanNode} {l r : Nat}
    (hr : r < s.length) (hlr : l ≠ r) :
    getN (combine s l r).1 r =
      { getN s r with parent := some s.length } := by
  unfold combine
  simp only
  rw [getN_append_lt (by simp [setParent]; omega)]
  unfold setParent
  rw [getN_set_self (by simpa [setParent] using hr)]
  rw [getN_set_other (fun he => hlr he.symm)]

theorem combine_getN_old {s : List HuffmanNode} {l r j : Nat}
    (hjl : j ≠ l) (hjr : j ≠ r) (hj : j < s.length) :
    getN (combine s l r).1 j = getN s j := by
  unfold combine
  simp only
  rw [getN_append_lt (by simp [setParent]; omega)]
  unfold setParent
  rw [getN_set_other hjr, getN_set_other hjl]

theorem is_leaf_iff {n : HuffmanNode} :
    n.is_leaf = true ↔ n.left = none ∧ n.right = none := by
  simp only [HuffmanNode.is_leaf, Bool.and_eq_true, Option.isNone_iff_eq_none]
  tauto

theorem not_is_leaf_of_left {n : HuffmanNode} {l : Nat}
    (h : n.left = some l) : n.is_leaf = false := by
  simp [HuffmanNode.is_leaf, h]

theorem htree_mem {s : List HuffmanNode} {i : Nat} {S : Finset Nat}
    (h : IsHTree s i S) : i ∈ S := by
  cases h with
  | leaf _ _ _ => exact Finset.mem_singleton_self i
  | node _ _ _ _ _ _ _ _ _ _ => exact Finset.mem_insert_self _ _

theorem htree_lt {s : List HuffmanNode} {i : Nat} {S : Finset Nat}
    (h : IsHTree s i S) : ∀ j ∈ S, j < s.length := by
  induction h with
  | leaf hi _ _ =>
    intro j hj
    rw [Finset.mem_singleton] at hj
    subst hj; assumption
  | node hi _ _ _ _ _ _ _ _ _ ihl ihr =>
    intro j hj
    rcases Finset.mem_insert.mp hj with hj | hj
    · subst hj; exact hi
    · rcases Finset.mem_union.mp hj with hj | hj
      · exact ihl j hj
      · exact ihr j hj

theorem htree_parent_mem {s : List HuffmanNode} {i : Nat} {S : Finset Nat}
    (h : IsHTree s i S) : ∀ j ∈ S, j ≠ i →
    ∃ p ∈ S, (getN s j).parent = some p ∧
      ((getN s p).left = some j ∨ (getN s p).right = some j) := by
  induction h with
  | leaf _ _ _ =>
    intro j hj hne
    rw [Finset.mem_singleton] at hj
    exact absurd hj hne
  | @node i l r A B hi hl hr htl htr hpl hpr hdis hiA hiB ihl ihr =>
    intro j hj hne
    rcases Finset.mem_insert.mp hj with hj | hj
    · exact absurd hj hne
    · rcases Finset.mem_union.mp hj with hj | hj
      · by_cases hjl : j = l
        · subst hjl
          exact ⟨i, Finset.mem_insert_self _ _, hpl, Or.inl hl⟩
        · obtain ⟨p, hp, hpar, hchild⟩ := ihl j hj hjl
          exact ⟨p, Finset.mem_insert_of_mem (Finset.mem_union_left _ hp),
            hpar, hchild⟩
      · by_cases hjr : j = r
        · subst hjr
          exact ⟨i, Finset.mem_insert_self _ _, hpr, Or.inr hr⟩
        · obtain ⟨p, hp, hpar, hchild⟩ := ihr j hj hjr
          exact ⟨p, Finset.mem_insert_of_mem (Finset.mem_union_right _ hp),
            hpar, hchild⟩

theorem htree_mono {s s2 : List HuffmanNode} {i : Nat} {S : Finset Nat}
    (h : IsHTree s i S) (hlen : s.length ≤ s2.length)
    (hkeep : ∀ j ∈ S, j ≠ i → getN s2 j = getN s j)
    (hrootl : (getN s2 i).left = (getN s i).left)
    (hrootr : (getN s2 i).right = (getN s i).right) :
    IsHTree s2 i S := by
  induction h with
  | leaf hi hl hr =>
    exact IsHTree.leaf (lt_of_lt_of_le hi hlen) (hrootl.trans hl)
      (hrootr.trans hr)
  | @node i l r A B hi hl hr htl htr hpl hpr hdis hiA hiB ihl ihr =>
    have hlS : l ∈ insert i (A ∪ B) :=
      Finset.mem_insert_of_mem (Finset.mem_union_left _ (htree_mem htl))
    have hrS : r ∈ insert i (A ∪ B) :=
      Finset.mem_insert_of_mem (Finset.mem_union_right _ (htree_mem htr))
    have hlne : l ≠ i := fun he => hiA (he ▸ htree_mem htl)
    have hrne : r ≠ i := fun he => hiB (he ▸ htree_mem htr)
    have hgl : getN s2 l = getN s l := hkeep l hlS hlne
    have hgr : getN s2 r = getN s r := hkeep r hrS hrne
    refine IsHTree.node (lt_of_lt_of_le hi hlen) (hrootl.trans hl)
      (hrootr.trans hr) ?_ ?_ (hgl ▸ hpl) (hgr ▸ hpr) hdis hiA hiB
    · refine ihl ?_ (by rw [hgl]) (by rw [hgl])
      intro j hj hne
      exact hkeep j
        (Finset.mem_insert_of_mem (Finset.mem_union_left _ hj))
        (fun he => hiA (he ▸ hj))
    · refine ihr ?_ (by rw [hgr]) (by rw [hgr])
      intro j hj hne
      exact hkeep j
        (Finset.mem_insert_of_mem (Finset.mem_union_right _ hj))
        (fun he => hiB (he ▸ hj))

theorem htree_card {s : List HuffmanNode} {i : Nat} {S : Finset Nat}
    (h : IsHTree s i S) :
    S.card + 1 = 2 * (S.filter (fun j => (getN s j).is_leaf = true)).card := by
  induction h with
  | @leaf i hi hl hr =>
    have hleaf : (getN s i).is_leaf = true := is_leaf_iff.mpr ⟨hl, hr⟩
    simp [Finset.filter_singleton, hleaf]
  | @node i l r A B hi hl hr htl htr hpl hpr hdis hiA hiB ihl ihr =>
    have hnl : ¬ (getN s i).is_leaf = true := by
      simp [not_is_leaf_of_left hl]
    have hcard : (insert i (A ∪ B)).card = (A ∪ B).card + 1 :=
      Finset.card_insert_of_not_mem (by
        intro hmem
        rcases Finset.mem_union.mp hmem with hm | hm
        · exact hiA hm
        · exact hiB hm)
    have hcu : (A ∪ B).card = A.card + B.card :=
      Finset.card_union_of_disjoint hdis
    have hfilt : (insert i (A ∪ B)).filter
        (fun j => (getN s j).is_leaf = true) =
        (A.filter (fun j => (getN s j).is_leaf = true)) ∪
        (B.filter (fun j => (getN s j).is_leaf = true)) := by
      rw [Finset.filter_insert, if_neg hnl, Finset.filter_union]
    have hfc : ((A.filter (fun j => (getN s j).is_leaf = true)) ∪
        (B.filter (fun j => (getN s j).is_leaf = true))).card =
        (A.filter (fun j => (getN s j).is_leaf = true)).card +
        (B.filter (fun j => (getN s j).is_leaf = true)).card :=
      Finset.card_union_of_disjoint
        (Finset.disjoint_filter_filter hdis)
    rw [hfilt, hfc, hcard, hcu]
    omega

theorem htree_weight {s : List HuffmanNode} {i : Nat} {S : Finset Nat}
    (h : IsHTree s i S)
    (hw : ∀ j ∈ S, ∀ l r, (getN s j).left = some l →
      (getN s j).right = some r →
      (getN s j).weight = (getN s l).weight + (getN s r).weight) :
    (getN s i).weight =
      ∑ j ∈ S.filter (fun j => (getN s j).is_leaf = true),
        (getN s j).weight := by
  induction h with
  | @leaf i hi hl hr =>
    have hleaf : (getN s i).is_leaf = true := is_leaf_iff.mpr ⟨hl, hr⟩
    simp [Finset.filter_singleton, hleaf]
  | @node i l r A B hi hl hr htl htr hpl hpr hdis hiA hiB ihl ihr =>
    have hnl : ¬ (getN s i).is_leaf = true := by
      simp [not_is_leaf_of_left hl]
    have hwA : ∀ j ∈ A, ∀ a b, (getN s j).left = some a →
        (getN s j).right = some b →
        (getN s j).weight = (getN s a).weight + (getN s b).weight :=
      fun j hj => hw j
        (Finset.mem_insert_of_mem (Finset.mem_union_left _ hj))
    have hwB : ∀ j ∈ B, ∀ a b, (getN s j).left = some a →
        (getN s j).right = some b →
        (getN s j).weight = (getN s a).weight + (getN s b).weight :=
      fun j hj => hw j
        (Finset.mem_insert_of_mem (Finset.mem_union_right _ hj))
    have hfilt : (insert i (A ∪ B)).filter
        (fun j => (getN s j).is_leaf = true) =
        (A.filter (fun j => (getN s j).is_leaf = true)) ∪
        (B.filter (fun j => (getN s j).is_leaf = true)) := by
      rw [Finset.filter_insert, if_neg hnl, Finset.filter_union]
    rw [hfilt, Finset.sum_union (Finset.disjoint_filter_filter hdis),
      hw i (Finset.mem_insert_self _ _) l r hl hr, ihl hwA, ihr hwB]

theorem reaches_trans {s : List HuffmanNode} {i j k : Nat}
    (h1 : Reaches s i j) (h2 : Reaches s j k) : Reaches s i k := by
  induction h2 with
  | refl => exact h1
  | viaLeft _ hstep ih => exact Reaches.viaLeft ih hstep
  | viaRight _ hstep ih => exact Reaches.viaRight ih hstep

theorem htree_reaches {s : List HuffmanNode} {i : Nat} {S : Finset Nat}
    (h : IsHTree s i S) : ∀ j ∈ S, Reaches s i j := by
  induction h with
  | leaf _ _ _ =>
    intro j hj
    rw [Finset.mem_singleton] at hj
    subst hj
    exact Reaches.refl j
  | @node i l r A B hi hl hr htl htr hpl hpr hdis hiA hiB ihl ihr =>
    intro j hj
    rcases Finset.mem_insert.mp hj with hj | hj
    · subst hj; exact Reaches.refl j
    · rcases Finset.mem_union.mp hj with hj | hj
      · exact reaches_trans (Reaches.viaLeft (Reaches.refl i) hl) (ihl j hj)
      · exact reaches_trans (Reaches.viaRight (Reaches.refl i) hr) (ihr j hj)

theorem partOf_perm {s : List HuffmanNode} {l1 l2 : List Nat}
    {U : Finset Nat} (h : PartOf s l1 U) (hp : l1.Perm l2) :
    PartOf s l2 U := by
  induction hp generalizing U with
  | nil => exact h
  | cons x _ ih =>
    cases h with
    | cons ht hpar hdis hrest => exact PartOf.cons ht hpar hdis (ih hrest)
  | swap x y l =>
    cases h with
    | @cons _ _ S T hty htypar hdisy hrest =>
      cases hrest with
      | @cons _ _ S2 T2 htx htxpar hdisx hrest2 =>
        have hdxy : Disjoint S2 S :=
          ((Finset.disjoint_union_right.mp hdisy).1).symm
        have hdyT : Disjoint S T2 :=
          (Finset.disjoint_union_right.mp hdisy).2
        have heq : S2 ∪ (S ∪ T2) = S ∪ (S2 ∪ T2) := by
          rw [Finset.union_left_comm]
        have hd2 : Disjoint S2 (S ∪ T2) :=
          Finset.disjoint_union_right.mpr ⟨hdxy, hdisx⟩
        exact heq ▸ PartOf.cons htx htxpar hd2
          (PartOf.cons hty htypar hdyT hrest2)
  | trans _ _ ih1 ih2 => exact ih2 (ih1 h)

theorem partOf_mono {s s2 : List HuffmanNode} {is : List Nat}
    {T : Finset Nat} (h : PartOf s is T) (hlen : s.length ≤ s2.length)
    (hkeep : ∀ j ∈ T, getN s2 j = getN s j) : PartOf s2 is T := by
  induction h with
  | nil => exact PartOf.nil
  | @cons i is S T ht hpar hdis hrest ih =>
    have hkS : ∀ j ∈ S, getN s2 j = getN s j :=
      fun j hj => hkeep j (Finset.mem_union_left _ hj)
    have hgi : getN s2 i = getN s i := hkS i (htree_mem ht)
    refine PartOf.cons
      (htree_mono ht hlen (fun j hj _ => hkS j hj)
        (by rw [hgi]) (by rw [hgi]))
      (by rw [hgi]; exact hpar) hdis
      (ih (fun j hj => hkeep j (Finset.mem_union_right _ hj)))

theorem getN_lt {s : List HuffmanNode} {i : Nat} (h : i < s.length) :
    getN s i = s.get ⟨i, h⟩ := by
  unfold getN
  rw [List.getD_eq_getElem _ _ h]
  simp

theorem initQ_map_fst (ns : List HuffmanNode) :
    (initQ ns).map Prod.fst = List.range ns.length := by
  simp only [initQ, List.map_map]
  exact List.map_id _

theorem initQ_map_snd (ns : List HuffmanNode) :
    (initQ ns).map Prod.snd = List.range ns.length := by
  simp only [initQ, List.map_map]
  exact List.map_id _

theorem partOf_cons_inv {s : List HuffmanNode} {a : Nat} {rest : List Nat}
    {U : Finset Nat} (h : PartOf s (a :: rest) U) :
    ∃ S T, IsHTree s a S ∧ (getN s a).parent = none ∧ Disjoint S T ∧
      PartOf s rest T ∧ U = S ∪ T := by
  cases h with
  | cons ht hp hd hr => exact ⟨_, _, ht, hp, hd, hr, rfl⟩

theorem partOf_range' (s : List HuffmanNode) (start m : Nat)
    (h : ∀ j, start ≤ j → j < start + m → j < s.length ∧
      (getN s j).left = none ∧ (getN s j).right = none ∧
      (getN s j).parent = none) :
    PartOf s (List.range' start m) (Finset.Ico start (start + m)) := by
  induction m generalizing start with
  | zero =>
    have : Finset.Ico start (start + 0) = (∅ : Finset Nat) := by simp
    rw [List.range', this]
    exact PartOf.nil
  | succ m ih =>
    obtain ⟨hlt, hl, hr, hp⟩ := h start (le_refl start) (by omega)
    have hrest : PartOf s (List.range' (start + 1) m)
        (Finset.Ico (start + 1) (start + 1 + m)) := by
      refine ih (start + 1) ?_
      intro j hj1 hj2
      exact h j (by omega) (by omega)
    have hdisj : Disjoint ({start} : Finset Nat)
        (Finset.Ico (start + 1) (start + 1 + m)) := by
      simp only [Finset.disjoint_singleton_left, Finset.mem_Ico]
      omega
    have hunion : ({start} : Finset Nat) ∪
        Finset.Ico (start + 1) (start + 1 + m) =
        Finset.Ico start (start + (m + 1)) := by
      ext x
      simp only [Finset.mem_union, Finset.mem_singleton, Finset.mem_Ico]
      omega
    have hcons : PartOf s (start :: List.range' (start + 1) m)
        (({start} : Finset Nat) ∪ Finset.Ico (start + 1) (start + 1 + m)) :=
      PartOf.cons (IsHTree.leaf hlt hl hr) hp hdisj hrest
    rw [List.range']
    exact hunion ▸ hcons

theorem loopInv_init (ns : List HuffmanNode) (hleaf : AllLeaves ns) :
    LoopInv ns ns (initQ ns) ns.length := by
  have hfield : ∀ i, (h : i < ns.length) →
      (getN ns i).left = none ∧ (getN ns i).right = none ∧
      (getN ns i).parent = none := by
    intro i h
    rw [getN_lt h]
    exact hleaf _ (ns.get_mem _ _)
  refine ⟨le_refl _, rfl, ?_, ?_, ?_, ?_, ?_, ?_, ?_, ?_⟩
  · intro i h
    obtain ⟨hl, hr, _⟩ := hfield i h
    exact ⟨by rw [getN_lt h], by rw [getN_lt h], hl, hr⟩
  · intro j h1 h2; omega
  · intro j hj l r hl hr
    obtain ⟨hl0, _, _⟩ := hfield j hj
    rw [hl0] at hl
    cases hl
  · intro j hj a ha
    obtain ⟨hl0, hr0, _⟩ := hfield j hj
    rcases ha with ha | ha
    · rw [hl0] at ha; cases ha
    · rw [hr0] at ha; cases ha
  · intro i hi p hp
    obtain ⟨_, _, hp0⟩ := hfield i hi
    rw [hp0] at hp
    cases hp
  · rw [initQ_map_snd]
    exact List.nodup_range _
  · intro e he
    simp only [initQ, List.mem_map, List.mem_range] at he
    obtain ⟨i, hi, rfl⟩ := he
    exact hi
  · rw [initQ_map_fst, List.range_eq_range', Finset.range_eq_Ico]
    have := partOf_range' ns 0 ns.length ?_
    · simpa using this
    · intro j hj1 hj2
      obtain ⟨hl, hr, hp⟩ := hfield j (by omega)
      exact ⟨by omega, hl, hr, hp⟩

theorem loopInv_step {ns s : List HuffmanNode} {q q1 q2 : List (Nat × Nat)}
    {c : Nat} {l r : Nat × Nat} (inv : LoopInv ns s q c)
    (h1 : popMin s q = some (l, q1)) (h2 : popMin s q1 = some (r, q2)) :
    LoopInv ns (combine s l.1 r.1).1
      (q2 ++ [((combine s l.1 r.1).2, c)]) (c + 1) := by
  have hqperm : q.Perm (l :: r :: q2) :=
    (popMin_perm h1).trans ((popMin_perm h2).cons l)
  have hfperm : (q.map Prod.fst).Perm (l.1 :: r.1 :: q2.map Prod.fst) := by
    simpa using hqperm.map Prod.fst
  have hpart2 := partOf_perm inv.hpart hfperm
  obtain ⟨Sl, T1, htl, hparl, hdisl, hrest, hU1⟩ := partOf_cons_inv hpart2
  obtain ⟨Sr, T, htr, hparr, hdisr, hrest2, hU2⟩ := partOf_cons_inv hrest
  subst hU2
  have hl1S : l.1 ∈ Sl := htree_mem htl
  have hr1S : r.1 ∈ Sr := htree_mem htr
  have hl1 : l.1 < s.length := htree_lt htl _ hl1S
  have hr1 : r.1 < s.length := htree_lt htr _ hr1S
  have hlr : l.1 ≠ r.1 := by
    intro he
    exact Finset.disjoint_left.mp hdisl hl1S
      (Finset.mem_union_left _ (by rw [he]; exact hr1S))
  have hlnotT : l.1 ∉ T := fun hc =>
    Finset.disjoint_left.mp hdisl hl1S (Finset.mem_union_right _ hc)
  have hrnotT : r.1 ∉ T := Finset.disjoint_left.mp hdisr hr1S
  have hTsub : ∀ j ∈ T, j < s.length := by
    intro j hj
    have hm : j ∈ Sl ∪ (Sr ∪ T) :=
      Finset.mem_union_right _ (Finset.mem_union_right _ hj)
    rw [← hU1] at hm
    exact Finset.mem_range.mp hm
  have hlen2 : (combine s l.1 r.1).1.length = s.length + 1 :=
    combine_length s l.1 r.1
  have hgl : getN (combine s l.1 r.1).1 l.1 =
      { getN s l.1 with parent := some s.length } := combine_getN_left hl1 hlr
  have hgr : getN (combine s l.1 r.1).1 r.1 =
      { getN s r.1 with parent := some s.length } := combine_getN_right hr1 hlr
  have hnew : getN (combine s l.1 r.1).1 s.length =
      ⟨(getN s l.1).weight + (getN s r.1).weight, Value.vnone,
        some l.1, some r.1, none⟩ := combine_getN_new hl1 hr1
  have hold : ∀ j, j ≠ l.1 → j ≠ r.1 → j < s.length →
      getN (combine s l.1 r.1).1 j = getN s j :=
    fun j ha hb hc => combine_getN_old ha hb hc
  have hfields : ∀ j, j < s.length →
      (getN (combine s l.1 r.1).1 j).weight = (getN s j).weight ∧
      (getN (combine s l.1 r.1).1 j).value = (getN s j).value ∧
      (getN (combine s l.1 r.1).1 j).left = (getN s j).left ∧
      (getN (combine s l.1 r.1).1 j).right = (getN s j).right := by
    intro j hj
    by_cases hjl : j = l.1
    · subst hjl; rw [hgl]; exact ⟨rfl, rfl, rfl, rfl⟩
    · by_cases hjr : j = r.1
      · subst hjr; rw [hgr]; exact ⟨rfl, rfl, rfl, rfl⟩
      · rw [hold j hjl hjr hj]; exact ⟨rfl, rfl, rfl, rfl⟩
  have hmemq : ∀ e ∈ q2, e ∈ q := by
    intro e he
    exact hqperm.mem_iff.mpr (List.mem_cons_of_mem _ (List.mem_cons_of_mem _ he))
  refine ⟨?_, ?_, ?_, ?_, ?_, ?_, ?_, ?_, ?_, ?_⟩
  · rw [hlen2]
    have := inv.hlen
    omega
  · rw [hlen2, ← inv.hcnt]
  · intro i h
    obtain ⟨hw, hv, hl0, hr0⟩ := inv.horig i h
    have hi : i < s.length := lt_of_lt_of_le h inv.hlen
    obtain ⟨f1, f2, f3, f4⟩ := hfields i hi
    exact ⟨f1.trans hw, f2.trans hv, f3.trans hl0, f4.trans hr0⟩
  · intro j hnsle hjlt
    rw [hlen2] at hjlt
    by_cases hjs : j < s.length
    · obtain ⟨_, _, f3, _⟩ := hfields j hjs
      rw [f3]
      exact inv.hinternal j hnsle hjs
    · have hj' : j = s.length := by omega
      subst hj'
      rw [hnew]
      simp
  · intro j hj a b hla hrb
    rw [hlen2] at hj
    by_cases hjs : j < s.length
    · obtain ⟨f1, _, f3, f4⟩ := hfields j hjs
      rw [f3] at hla
      rw [f4] at hrb
      have ha : a < s.length := inv.hchild j hjs a (Or.inl hla)
      have hb : b < s.length := inv.hchild j hjs b (Or.inr hrb)
      rw [f1, (hfields a ha).1, (hfields b hb).1]
      exact inv.hweight j hjs a b hla hrb
    · have hj' : j = s.length := by omega
      subst hj'
      rw [hnew] at hla hrb
      simp only at hla hrb
      injection hla with hla
      injection hrb with hrb
      subst hla; subst hrb
      rw [hnew, (hfields l.1 hl1).1, (hfields r.1 hr1).1]
  · intro j hj a ha
    rw [hlen2] at hj ⊢
    by_cases hjs : j < s.length
    · obtain ⟨_, _, f3, f4⟩ := hfields j hjs
      rw [f3, f4] at ha
      have := inv.hchild j hjs a ha
      omega
    · have hj' : j = s.length := by omega
      subst hj'
      rw [hnew] at ha
      simp only at ha
      rcases ha with ha | ha <;> injection ha with ha <;> subst ha <;> omega
  · intro i hi p hp
    rw [hlen2] at hi ⊢
    by_cases hil : i = l.1
    · subst hil
      rw [hgl] at hp
      simp only at hp
      injection hp with hp
      subst hp
      omega
    · by_cases hir : i = r.1
      · subst hir
        rw [hgr] at hp
        simp only at hp
        injection hp with hp
        subst hp
        omega
      · by_cases his : i < s.length
        · rw [hold i hil hir his] at hp
          have := inv.hpwf i his p hp
          omega
        · have hi' : i = s.length := by omega
          subst hi'
          rw [hnew] at hp
          cases hp
  · have hsperm : (q.map Prod.snd).Perm (l.2 :: r.2 :: q2.map Prod.snd) := by
      simpa using hqperm.map Prod.snd
    have hnd : (q2.map Prod.snd).Nodup :=
      ((hsperm.nodup_iff.mp inv.hnodup).of_cons).of_cons
    have hcnot : c ∉ q2.map Prod.snd := by
      intro hc
      obtain ⟨e, he, heq⟩ := List.mem_map.mp hc
      have := inv.hcbound e (hmemq e he)
      omega
    rw [List.map_append]
    simp only [List.map_cons, List.map_nil]
    refine List.Nodup.append hnd (List.nodup_singleton _) ?_
    intro a ha hb
    simp only [List.mem_singleton] at hb
    subst hb
    exact hcnot ha
  · intro e he
    rcases List.mem_append.mp he with he | he
    · have := inv.hcbound e (hmemq e he)
      omega
    · simp only [List.mem_singleton] at he
      subst he
      omega
  · have hTkeep : ∀ j ∈ T, getN (combine s l.1 r.1).1 j = getN s j := by
      intro j hj
      exact hold j (fun he => hlnotT (he ▸ hj)) (fun he => hrnotT (he ▸ hj))
        (hTsub j hj)
    have hpartT : PartOf (combine s l.1 r.1).1 (q2.map Prod.fst) T :=
      partOf_mono hrest2 (by rw [hlen2]; omega) hTkeep
    have hSlkeep : ∀ j ∈ Sl, j ≠ l.1 →
        getN (combine s l.1 r.1).1 j = getN s j := by
      intro j hj hne
      have hjr : j ≠ r.1 := by
        intro he
        exact Finset.disjoint_left.mp hdisl (he ▸ hj)
          (Finset.mem_union_left _ hr1S)
      exact hold j hne hjr (htree_lt htl j hj)
    have hSrkeep : ∀ j ∈ Sr, j ≠ r.1 →
        getN (combine s l.1 r.1).1 j = getN s j := by
      intro j hj hne
      have hjl : j ≠ l.1 := by
        intro he
        exact Finset.disjoint_left.mp hdisl hl1S
          (Finset.mem_union_left _ (he ▸ hj))
      exact hold j hjl hne (htree_lt htr j hj)
    have htl2 : IsHTree (combine s l.1 r.1).1 l.1 Sl :=
      htree_mono htl (by rw [hlen2]; omega) hSlkeep
        (by rw [hgl]) (by rw [hgl])
    have htr2 : IsHTree (combine s l.1 r.1).1 r.1 Sr :=
      htree_mono htr (by rw [hlen2]; omega) hSrkeep
        (by rw [hgr]) (by rw [hgr])
    have hnidSl : s.length ∉ Sl := fun hc => by
      have := htree_lt htl _ hc
      omega
    have hnidSr : s.length ∉ Sr := fun hc => by
      have := htree_lt htr _ hc
      omega
    have hnew_tree : IsHTree (combine s l.1 r.1).1 s.length
        (insert s.length (Sl ∪ Sr)) :=
      IsHTree.node (by rw [hlen2]; omega) (by rw [hnew]) (by rw [hnew])
        htl2 htr2 (by rw [hgl]) (by rw [hgr])
        (Finset.disjoint_union_right.mp hdisl).1 hnidSl hnidSr
    have hdisNew : Disjoint (insert s.length (Sl ∪ Sr)) T := by
      rw [Finset.disjoint_left]
      intro a ha hat
      rcases Finset.mem_insert.mp ha with ha | ha
      · subst ha
        exact absurd (hTsub _ hat) (by omega)
      · rcases Finset.mem_union.mp ha with ha | ha
        · exact Finset.disjoint_left.mp hdisl ha
            (Finset.mem_union_right _ hat)
        · exact Finset.disjoint_left.mp hdisr ha hat
    have hcons : PartOf (combine s l.1 r.1).1
        (s.length :: q2.map Prod.fst) (insert s.length (Sl ∪ Sr) ∪ T) :=
      PartOf.cons hnew_tree (by rw [hnew]) hdisNew hpartT
    have hseteq : insert s.length (Sl ∪ Sr) ∪ T =
        Finset.range ((combine s l.1 r.1).1.length) := by
      rw [hlen2, Finset.insert_union, Finset.union_assoc, ← hU1,
        Finset.range_succ]
    rw [List.map_append]
    simp only [List.map_cons, List.map_nil, combine_snd]
    exact partOf_perm (hseteq ▸ hcons)
      ((List.perm_append_singleton _ _).symm)

theorem loopInv_final {ns s : List HuffmanNode} {q q1 : List (Nat × Nat)}
    {c : Nat} {l : Nat × Nat} (inv : LoopInv ns s q c)
    (h1 : popMin s q = some (l, q1)) (h2 : popMin s q1 = none) :
    Final ns s l.1 := by
  have hq1 : q1 = [] := popMin_eq_none.mp h2
  subst hq1
  have hfperm : (q.map Prod.fst).Perm [l.1] := by
    simpa using (popMin_perm h1).map Prod.fst
  have hpart2 := partOf_perm inv.hpart hfperm
  obtain ⟨S, T, ht, hpar, hdis, hrest, hU⟩ := partOf_cons_inv hpart2
  cases hrest
  rw [Finset.union_empty] at hU
  have htree : IsHTree s l.1 (Finset.range s.length) := hU ▸ ht
  have hfilt : (Finset.range s.length).filter
      (fun j => (getN s j).is_leaf = true) = Finset.range ns.length := by
    ext j
    simp only [Finset.mem_filter, Finset.mem_range]
    constructor
    · rintro ⟨hj, hleaf⟩
      by_contra hn
      push_neg at hn
      obtain ⟨hl0, _⟩ := is_leaf_iff.mp hleaf
      exact inv.hinternal j hn hj hl0
    · intro hj
      obtain ⟨_, _, hl0, hr0⟩ := inv.horig j hj
      exact ⟨lt_of_lt_of_le hj inv.hlen, is_leaf_iff.mpr ⟨hl0, hr0⟩⟩
  have hcard := htree_card htree
  rw [hfilt] at hcard
  simp only [Finset.card_range] at hcard
  exact ⟨htree, hpar, hcard, inv.horig, inv.hinternal, inv.hweight, inv.hpwf⟩

theorem buildLoop_sound {ns : List HuffmanNode} :
    ∀ fuel (s : List HuffmanNode) (q : List (Nat × Nat)) (c : Nat),
    LoopInv ns s q c → q ≠ [] → q.length ≤ fuel →
    ∃ s2 root, buildLoop fuel s q c = Except.ok (s2, root) ∧
      Final ns s2 root := by
  intro fuel
  induction fuel with
  | zero =>
    intro s q c _ hne hlen
    have : q = [] := List.length_eq_zero.mp (by omega)
    exact absurd this hne
  | succ fuel ih =>
    intro s q c inv hne hlen
    cases hq1 : popMin s q with
    | none => exact absurd (popMin_eq_none.mp hq1) hne
    | some p1 =>
      obtain ⟨l, q1⟩ := p1
      cases hq2 : popMin s q1 with
      | none =>
        refine ⟨s, l.1, ?_, loopInv_final inv hq1 hq2⟩
        simp [buildLoop, hq1, hq2]
      | some p2 =>
        obtain ⟨r, q2⟩ := p2
        have hstep := loopInv_step inv hq1 hq2
        have hlq : q.length = q2.length + 2 := by
          have e1 := popMin_length hq1
          have e2 := popMin_length hq2
          omega
        obtain ⟨s2, root, hrun, hfin⟩ := ih (combine s l.1 r.1).1
          (q2 ++ [((combine s l.1 r.1).2, c)]) (c + 1) hstep
          (by simp) (by simp; omega)
        refine ⟨s2, root, ?_, hfin⟩
        simpa [buildLoop, hq1, hq2] using hrun

theorem build_tree_ok {ns : List HuffmanNode} (hne : ns ≠ [])
    (hleaf : AllLeaves ns) :
    ∃ s root, build_tree ns = Except.ok (s, root) ∧ Final ns s root := by
  have hql : (initQ ns).length = ns.length := by simp [initQ]
  have hqne : initQ ns ≠ [] := by
    intro hc
    rw [hc] at hql
    simp at hql
    exact hne (List.length_eq_zero.mp hql.symm)
  exact buildLoop_sound (ns.length + 1) ns (initQ ns) ns.length
    (loopInv_init ns hleaf) hqne (by omega)

theorem list_sum_eq_sum_range (xs : List Int) :
    xs.sum = ∑ i ∈ Finset.range xs.length, xs.getD i 0 := by
  induction xs with
  | nil => simp
  | cons x t ih =>
    rw [List.sum_cons, ih, List.length_cons, Finset.sum_range_succ']
    simp [List.getD]
    omega

theorem final_leaf_iff {ns s : List HuffmanNode} {root : Nat}
    (f : Final ns s root) : ∀ j, j < s.length →
    ((getN s j).is_leaf = true ↔ j < ns.length) := by
  intro j hj
  constructor
  · intro hleaf
    by_contra hn
    push_neg at hn
    obtain ⟨hl0, _⟩ := is_leaf_iff.mp hleaf
    exact f.hinternal j hn hj hl0
  · intro hjn
    obtain ⟨_, _, hl0, hr0⟩ := f.horig j hjn
    exact is_leaf_iff.mpr ⟨hl0, hr0⟩

theorem final_leaf_filter {ns s : List HuffmanNode} {root : Nat}
    (f : Final ns s root) :
    (Finset.range s.length).filter (fun j => (getN s j).is_leaf = true) =
      Finset.range ns.length := by
  ext j
  simp only [Finset.mem_filter, Finset.mem_range]
  constructor
  · rintro ⟨hj, hleaf⟩
    exact (final_leaf_iff f j hj).mp hleaf
  · intro hj
    have hjs : j < s.length := by
      have := f.hlen
      omega
    exact ⟨hjs, (final_leaf_iff f j hjs).mpr hj⟩

theorem final_root_weight {ns s : List HuffmanNode} {root : Nat}
    (f : Final ns s root) :
    (getN s root).weight = (ns.map HuffmanNode.weight).sum := by
  have hw : ∀ j ∈ Finset.range s.length, ∀ a b,
      (getN s j).left = some a → (getN s j).right = some b →
      (getN s j).weight = (getN s a).weight + (getN s b).weight :=
    fun j hj => f.hweight j (Finset.mem_range.mp hj)
  rw [htree_weight f.htree hw, final_leaf_filter f]
  rw [list_sum_eq_sum_range, List.length_map]
  apply Finset.sum_congr rfl
  intro j hj
  rw [Finset.mem_range] at hj
  obtain ⟨hwj, _, _, _⟩ := f.horig j hj
  rw [hwj]
  rw [List.getD_eq_getElem _ _ (by simpa using hj), List.getElem_map]
  simp

/-- Claim C1: for every non-empty list of `n` leaf nodes, `build_tree`
succeeds and returns a root whose weight is the sum of all input weights;
the resulting arena holds exactly `n` leaves and `n - 1` internal nodes,
and every original input node (ids `0 .. n-1`, fields other than `parent`
untouched) is a leaf of the returned tree, reachable from the root via
left/right references. -/
theorem build_tree_root_weight_and_shape (ns : List HuffmanNode)
    (hne : ns ≠ []) (hleaf : AllLeaves ns) :
    ∃ s root, build_tree ns = Except.ok (s, root) ∧
      (getN s root).weight = (ns.map HuffmanNode.weight).sum ∧
      ((Finset.range s.length).filter
        (fun j => (getN s j).is_leaf = true)).card = ns.length ∧
      ((Finset.range s.length).filter
        (fun j => ¬ (getN s j).is_leaf = true)).card = ns.length - 1 ∧
      ∀ i, (h : i < ns.length) → (getN s i).is_leaf = true ∧
        (getN s i).weight = (ns.get ⟨i, h⟩).weight ∧
        (getN s i).value = (ns.get ⟨i, h⟩).value ∧
        Reaches s root i := by
  obtain ⟨s, root, hrun, f⟩ := build_tree_ok hne hleaf
  have hnlen : 1 ≤ ns.length := by
    cases ns with
    | nil => exact absurd rfl hne
    | cons a t => simp
  have hcleaf : ((Finset.range s.length).filter
      (fun j => (getN s j).is_leaf = true)).card = ns.length := by
    rw [final_leaf_filter f, Finset.card_range]
  have hcint : ((Finset.range s.length).filter
      (fun j => ¬ (getN s j).is_leaf = true)).card = ns.length - 1 := by
    have hsum := Finset.filter_card_add_filter_neg_card_eq_card
      (s := Finset.range s.length)
      (p := fun j => (getN s j).is_leaf = true)
    rw [hcleaf, Finset.card_range] at hsum
    have := f.hlen
    omega
  refine ⟨s, root, hrun, final_root_weight f, hcleaf, hcint, ?_⟩
  intro i h
  obtain ⟨hw, hv, hl0, hr0⟩ := f.horig i h
  have his : i < s.length := by
    have := f.hlen
    omega
  exact ⟨is_leaf_iff.mpr ⟨hl0, hr0⟩, hw, hv,
    htree_reaches f.htree i (Finset.mem_range.mpr his)⟩

/-- Witness for C1 at the two-leaf input `[(weight 3, "A"), (weight 7, "B")]`
(values as ints 65, 66). -/
theorem build_tree_root_weight_and_shape_witness :
    ∃ s root,
      build_tree [⟨3, Value.vint 65, none, none, none⟩,
        ⟨7, Value.vint 66, none, none, none⟩] = Except.ok (s, root) ∧
      (getN s root).weight =
        (([⟨3, Value.vint 65, none, none, none⟩,
          ⟨7, Value.vint 66, none, none, none⟩] :
            List HuffmanNode).map HuffmanNode.weight).sum ∧
      ((Finset.range s.length).filter
        (fun j => (getN s j).is_leaf = true)).card = 2 ∧
      ((Finset.range s.length).filter
        (fun j => ¬ (getN s j).is_leaf = true)).card = 1 ∧
      ∀ i, (h : i < ([⟨3, Value.vint 65, none, none, none⟩,
          ⟨7, Value.vint 66, none, none, none⟩] :
            List HuffmanNode).length) →
        (getN s i).is_leaf = true ∧
        (getN s i).weight = (([⟨3, Value.vint 65, none, none, none⟩,
          ⟨7, Value.vint 66, none, none, none⟩] :
            List HuffmanNode).get ⟨i, h⟩).weight ∧
        (getN s i).value = (([⟨3, Value.vint 65, none, none, none⟩,
          ⟨7, Value.vint 66, none, none, none⟩] :
            List HuffmanNode).get ⟨i, h⟩).value ∧
        Reaches s root i :=
  build_tree_root_weight_and_shape
    [⟨3, Value.vint 65, none, none, none⟩,
      ⟨7, Value.vint 66, none, none, none⟩]
    (by simp)
    (by
      intro n hn
      simp only [List.mem_cons, List.mem_singleton] at hn
      rcases hn with rfl | hn
      · exact ⟨rfl, rfl, rfl⟩
      · simp only [List.not_mem_nil, or_false] at hn
        subst hn
        exact ⟨rfl, rfl, rfl⟩)

theorem walkTo_self (s : List HuffmanNode) (t f : Nat) :
    walkTo s t (f + 1) t = some [] := by
  simp [walkTo]

theorem walkTo_mono {s : List HuffmanNode} {t : Nat} :
    ∀ f f2 j w, walkTo s t f j = some w → f ≤ f2 →
    walkTo s t f2 j = some w := by
  intro f
  induction f with
  | zero => intro f2 j w h _; simp [walkTo] at h
  | succ f ih =>
    intro f2 j w h hle
    obtain ⟨f2', rfl⟩ : ∃ k, f2 = k + 1 := ⟨f2 - 1, by omega⟩
    by_cases hjt : j = t
    · subst hjt
      rw [walkTo_self] at h
      rw [walkTo_self]
      exact h
    · cases hp : (getN s j).parent with
      | none => simp [walkTo, if_neg hjt, hp] at h
      | some p =>
        simp only [walkTo, if_neg hjt, hp] at h ⊢
        cases hw : walkTo s t f p with
        | none => simp [hw] at h
        | some w' =>
          rw [hw, Option.map_some'] at h
          rw [ih f2' p w' hw (by omega), Option.map_some']
          exact h

theorem walkTo_det {s : List HuffmanNode} {t f1 f2 j : Nat}
    {w1 w2 : List Char} (h1 : walkTo s t f1 j = some w1)
    (h2 : walkTo s t f2 j = some w2) : w1 = w2 := by
  have e1 := walkTo_mono f1 (f1 + f2) j w1 h1 (by omega)
  have e2 := walkTo_mono f2 (f1 + f2) j w2 h2 (by omega)
  rw [e1] at e2
  injection e2

theorem walk_lift {s : List HuffmanNode} {a i : Nat} {A : Finset Nat}
    (ht : IsHTree s a A) (hpar : (getN s a).parent = some i)
    (hiA : i ∉ A) :
    ∀ f j w, j ∈ A → walkTo s a f j = some w →
    walkTo s i (f + 1) j = some (dirChar s i a :: w) := by
  intro f
  induction f with
  | zero => intro j w _ h; simp [walkTo] at h
  | succ f ih =>
    intro j w hjA h
    have hji : j ≠ i := fun he => hiA (he ▸ hjA)
    by_cases hja : j = a
    · subst hja
      rw [walkTo_self] at h
      injection h with h
      subst h
      simp only [walkTo, if_neg hji, hpar, walkTo_self]
      rfl
    · obtain ⟨p, hpmem, hpp, _⟩ := htree_parent_mem ht j hjA hja
      simp only [walkTo, if_neg hja, hpp] at h
      cases hw : walkTo s a f p with
      | none => simp [hw] at h
      | some w' =>
        rw [hw, Option.map_some'] at h
        injection h with h
        subst h
        have hih := ih p w' hpmem hw
        have hgoal : walkTo s i (f + 1 + 1) j =
            (walkTo s i (f + 1) p).map (fun w => w ++ [dirChar s p j]) := by
          simp only [walkTo, if_neg hji, hpp]
        rw [hgoal, hih, Option.map_some']
        rfl

theorem walk_exists {s : List HuffmanNode} {a : Nat} {A : Finset Nat}
    (ht : IsHTree s a A) :
    ∀ j ∈ A, ∃ w, walkTo s a A.card j = some w ∧
      (∀ ch ∈ w, ch = '0' ∨ ch = '1') ∧ (j ≠ a → w ≠ []) := by
  induction ht with
  | @leaf a ha hl hr =>
    intro j hj
    rw [Finset.mem_singleton] at hj
    subst hj
    refine ⟨[], ?_, by simp, by simp⟩
    rw [Finset.card_singleton]
    exact walkTo_self s j 0
  | @node i l r A B hi hl hr htl htr hpl hpr hdis hiA hiB ihl ihr =>
    intro j hj
    have hlr : l ≠ r := by
      intro he
      exact Finset.disjoint_left.mp hdis (htree_mem htl)
        (he ▸ htree_mem htr)
    have hcard : (insert i (A ∪ B)).card = A.card + B.card + 1 := by
      rw [Finset.card_insert_of_not_mem (by
        intro hmem
        rcases Finset.mem_union.mp hmem with hm | hm
        · exact hiA hm
        · exact hiB hm), Finset.card_union_of_disjoint hdis]
    rcases Finset.mem_insert.mp hj with hj | hj
    · subst hj
      refine ⟨[], ?_, by simp, by simp⟩
      rw [hcard]
      exact walkTo_self s j _
    · rcases Finset.mem_union.mp hj with hj | hj
      · obtain ⟨w, hw, hch, _⟩ := ihl j hj
        have hlift := walk_lift htl hpl hiA A.card j w hj hw
        have hd : dirChar s i l = '0' := by
          unfold dirChar
          rw [if_pos hl]
        refine ⟨'0' :: w, ?_, ?_, by simp⟩
        · rw [← hd]
          exact walkTo_mono _ _ _ _ hlift (by omega)
        · intro ch hch2
          rcases List.mem_cons.mp hch2 with hch2 | hch2
          · exact Or.inl hch2
          · exact hch ch hch2
      · obtain ⟨w, hw, hch, _⟩ := ihr j hj
        have hlift := walk_lift htr hpr hiB B.card j w hj hw
        have hd : dirChar s i r = '1' := by
          unfold dirChar
          rw [hl, if_neg (by
            intro he
            injection he with he
            exact hlr he)]
        refine ⟨'1' :: w, ?_, ?_, by simp⟩
        · rw [← hd]
          exact walkTo_mono _ _ _ _ hlift (by omega)
        · intro ch hch2
          rcases List.mem_cons.mp hch2 with hch2 | hch2
          · exact Or.inr hch2
          · exact hch ch hch2

theorem isPrefOf_cons {a b : Char} {x y : List Char}
    (h : isPrefOf (a :: x) (b :: y)) : a = b ∧ isPrefOf x y := by
  obtain ⟨t, ht⟩ := h
  rw [List.cons_append] at ht
  injection ht with h1 h2
  exact ⟨h1, t, h2⟩

theorem walk_prefixfree {s : List HuffmanNode} {a : Nat} {A : Finset Nat}
    (ht : IsHTree s a A) :
    ∀ j ∈ A, ∀ k ∈ A, (getN s j).is_leaf = true →
    (getN s k).is_leaf = true → j ≠ k →
    ∀ fj fk wj wk, walkTo s a fj j = some wj →
    walkTo s a fk k = some wk → ¬ isPrefOf wj wk := by
  induction ht with
  | @leaf a _ _ _ =>
    intro j hj k hk _ _ hne
    rw [Finset.mem_singleton] at hj hk
    subst hj; subst hk
    exact absurd rfl hne
  | @node i l r A B hi hl hr htl htr hpl hpr hdis hiA hiB ihl ihr =>
    intro j hj k hk hjleaf hkleaf hne fj fk wj wk hwj hwk
    have hlr : l ≠ r := by
      intro he
      exact Finset.disjoint_left.mp hdis (htree_mem htl)
        (he ▸ htree_mem htr)
    have hdl : dirChar s i l = '0' := by
      unfold dirChar
      rw [if_pos hl]
    have hdr : dirChar s i r = '1' := by
      unfold dirChar
      rw [hl, if_neg (by
        intro he
        injection he with he
        exact hlr he)]
    have hileaf : (getN s i).is_leaf = false := not_is_leaf_of_left hl
    have hji : j ≠ i := by
      intro he
      rw [he, hileaf] at hjleaf
      cases hjleaf
    have hki : k ≠ i := by
      intro he
      rw [he, hileaf] at hkleaf
      cases hkleaf
    have hjm : j ∈ A ∪ B := by
      rcases Finset.mem_insert.mp hj with h | h
      · exact absurd h hji
      · exact h
    have hkm : k ∈ A ∪ B := by
      rcases Finset.mem_insert.mp hk with h | h
      · exact absurd h hki
      · exact h
    -- decompose each walk through the child subtree containing the leaf
    have hsplitA : ∀ x ∈ A, ∀ fx wx, walkTo s i fx x = some wx →
        ∃ wx', walkTo s l A.card x = some wx' ∧ wx = '0' :: wx' := by
      intro x hx fx wx hwx
      obtain ⟨wx', hwx', _, _⟩ := walk_exists htl x hx
      have hlift := walk_lift htl hpl hiA A.card x wx' hx hwx'
      rw [hdl] at hlift
      exact ⟨wx', hwx', walkTo_det hwx hlift⟩
    have hsplitB : ∀ x ∈ B, ∀ fx wx, walkTo s i fx x = some wx →
        ∃ wx', walkTo s r B.card x = some wx' ∧ wx = '1' :: wx' := by
      intro x hx fx wx hwx
      obtain ⟨wx', hwx', _, _⟩ := walk_exists htr x hx
      have hlift := walk_lift htr hpr hiB B.card x wx' hx hwx'
      rw [hdr] at hlift
      exact ⟨wx', hwx', walkTo_det hwx hlift⟩
    rcases Finset.mem_union.mp hjm with hjA | hjB
    · rcases Finset.mem_union.mp hkm with hkA | hkB
      · obtain ⟨wj', hwj', rfl⟩ := hsplitA j hjA fj wj hwj
        obtain ⟨wk', hwk', rfl⟩ := hsplitA k hkA fk wk hwk
        intro hpre
        exact ihl j hjA k hkA hjleaf hkleaf hne _ _ _ _ hwj' hwk'
          (isPrefOf_cons hpre).2
      · obtain ⟨wj', hwj', rfl⟩ := hsplitA j hjA fj wj hwj
        obtain ⟨wk', hwk', rfl⟩ := hsplitB k hkB fk wk hwk
        intro hpre
        have := (isPrefOf_cons hpre).1
        cases this
    · rcases Finset.mem_union.mp hkm with hkA | hkB
      · obtain ⟨wj', hwj', rfl⟩ := hsplitB j hjB fj wj hwj
        obtain ⟨wk', hwk', rfl⟩ := hsplitA k hkA fk wk hwk
        intro hpre
        have := (isPrefOf_cons hpre).1
        cases this
      · obtain ⟨wj', hwj', rfl⟩ := hsplitB j hjB fj wj hwj
        obtain ⟨wk', hwk', rfl⟩ := hsplitB k hkB fk wk hwk
        intro hpre
        exact ihr j hjB k hkB hjleaf hkleaf hne _ _ _ _ hwj' hwk'
          (isPrefOf_cons hpre).2

theorem getN_default {s : List HuffmanNode} {i : Nat} (h : s.length ≤ i) :
    getN s i = default :=
  List.getD_eq_default _ _ h

theorem htree_leaf_singleton {s : List HuffmanNode} {i : Nat}
    {S : Finset Nat} (ht : IsHTree s i S)
    (hleaf : (getN s i).is_leaf = true) : S = {i} := by
  cases ht with
  | leaf _ _ _ => rfl
  | node _ hl _ _ _ _ _ _ _ _ =>
    rw [not_is_leaf_of_left hl] at hleaf
    cases hleaf

theorem codeWalk_eq_walkTo {s : List HuffmanNode} {t : Nat}
    {S : Finset Nat} (ht : IsHTree s t S)
    (hpar : (getN s t).parent = none) :
    ∀ f j, j ∈ S → codeWalk s f j = walkTo s t f j := by
  intro f
  induction f with
  | zero => intro j _; rfl
  | succ f ih =>
    intro j hj
    by_cases hjt : j = t
    · subst hjt
      rw [walkTo_self]
      simp only [codeWalk, hpar]
    · obtain ⟨p, hpmem, hpp, _⟩ := htree_parent_mem ht j hj hjt
      have h1 : codeWalk s (f + 1) j =
          (codeWalk s f p).map (fun w => w ++ [dirChar s p j]) := by
        simp only [codeWalk, hpp]
      have h2 : walkTo s t (f + 1) j =
          (walkTo s t f p).map (fun w => w ++ [dirChar s p j]) := by
        simp only [walkTo, if_neg hjt, hpp]
      rw [h1, h2, ih p hpmem]

theorem codeWalk_ok {s : List HuffmanNode} (hwf : ParentWF s) :
    ∀ fuel i, 1 ≤ fuel → s.length ≤ i + fuel →
    ∃ w, codeWalk s fuel i = some w := by
  intro fuel
  induction fuel with
  | zero => intro i h; omega
  | succ fuel ih =>
    intro i _ hbound
    cases hp : (getN s i).parent with
    | none => exact ⟨[], by simp [codeWalk, hp]⟩
    | some p =>
      have hip : i < s.length := by
        by_contra hc
        push_neg at hc
        rw [getN_default hc] at hp
        cases hp
      obtain ⟨hlt, hplen⟩ := hwf i hip p hp
      have h1 : 1 ≤ fuel := by omega
      obtain ⟨w, hw⟩ := ih p h1 (by omega)
      exact ⟨w ++ [dirChar s p i],
        by simp only [codeWalk, hp, hw, Option.map_some']⟩

theorem code_ok_iff {s : List HuffmanNode} (hwf : ParentWF s) (i : Nat) :
    ((∃ w, code s i = Except.ok w) ↔ (getN s i).is_leaf = true) ∧
    (code s i = Except.error PyError.attributeError ↔
      (getN s i).is_leaf = false) := by
  cases hleaf : (getN s i).is_leaf with
  | false =>
    constructor
    · constructor
      · rintro ⟨w, hw⟩
        rw [code, if_neg (by rw [hleaf]; exact fun h => nomatch h)] at hw
        cases hw
      · intro h; cases h
    · constructor
      · intro _; rfl
      · intro _
        rw [code, if_neg (by rw [hleaf]; exact fun h => nomatch h)]
  | true =>
    obtain ⟨w, hw⟩ := codeWalk_ok hwf (s.length + 1) i (by omega) (by omega)
    have hcode : code s i = Except.ok w := by
      rw [code, if_pos (by rw [hleaf]), hw]
    constructor
    · exact ⟨fun _ => rfl, fun _ => ⟨w, hcode⟩⟩
    · constructor
      · intro h
        rw [hcode] at h
        cases h
      · intro h; cases h

/-- Claim C3: for every tree built from at least two leaves, each input
leaf's `code` is a non-empty list over `{'0','1'}`, and for any two
distinct input leaves neither code is a prefix of the other. -/
theorem build_tree_codes_prefix_free (ns : List HuffmanNode)
    (h2 : 2 ≤ ns.length) (hleaf : AllLeaves ns) :
    ∃ s root, build_tree ns = Except.ok (s, root) ∧
      ∀ i j, i < ns.length → j < ns.length → i ≠ j →
        ∃ ci cj, code s i = Except.ok ci ∧ code s j = Except.ok cj ∧
          ci ≠ [] ∧ (∀ ch ∈ ci, ch = '0' ∨ ch = '1') ∧
          ¬ isPrefOf ci cj := by
  have hne : ns ≠ [] := by
    intro h
    rw [h] at h2
    simp at h2
  obtain ⟨s, root, hrun, f⟩ := build_tree_ok hne hleaf
  refine ⟨s, root, hrun, ?_⟩
  intro i j hi hj hne2
  have hilen : i < s.length := by have := f.hlen; omega
  have hjlen : j < s.length := by have := f.hlen; omega
  have hiS : i ∈ Finset.range s.length := Finset.mem_range.mpr hilen
  have hjS : j ∈ Finset.range s.length := Finset.mem_range.mpr hjlen
  have hileaf : (getN s i).is_leaf = true := (final_leaf_iff f i hilen).mpr hi
  have hjleaf : (getN s j).is_leaf = true := (final_leaf_iff f j hjlen).mpr hj
  have hrootleaf : (getN s root).is_leaf = false := by
    cases hb : (getN s root).is_leaf with
    | false => rfl
    | true =>
      have hsing := htree_leaf_singleton f.htree hb
      have hcard : s.length = 1 := by
        have := congrArg Finset.card hsing
        simpa using this
      have := f.hlen
      omega
  have hcw : ∀ k, k ∈ Finset.range s.length → (getN s k).is_leaf = true →
      ∃ w, code s k = Except.ok w ∧
        walkTo s root (s.length + 1) k = some w ∧
        (∀ ch ∈ w, ch = '0' ∨ ch = '1') ∧ (k ≠ root → w ≠ []) := by
    intro k hk hkleaf
    obtain ⟨w, hw, hch, hnonempty⟩ := walk_exists f.htree k hk
    have hw2 : walkTo s root (s.length + 1) k = some w :=
      walkTo_mono _ _ _ _ hw (by rw [Finset.card_range]; omega)
    have hcwk : codeWalk s (s.length + 1) k = some w := by
      rw [codeWalk_eq_walkTo f.htree f.hrootpar _ k hk]
      exact hw2
    refine ⟨w, ?_, hw2, hch, hnonempty⟩
    rw [code, if_pos (by rw [hkleaf]), hcwk]
  obtain ⟨ci, hci, hciW, hciCh, hciNE⟩ := hcw i hiS hileaf
  obtain ⟨cj, hcj, hcjW, _, _⟩ := hcw j hjS hjleaf
  have hiroot : i ≠ root := by
    intro he
    rw [he, hrootleaf] at hileaf
    cases hileaf
  exact ⟨ci, cj, hci, hcj, hciNE hiroot, hciCh,
    walk_prefixfree f.htree i hiS j hjS hileaf hjleaf hne2 _ _ _ _
      hciW hcjW⟩

/-- Witness for C3 at the two-leaf input with weights 3 and 7. -/
theorem build_tree_codes_prefix_free_witness :
    ∃ s root,
      build_tree [⟨3, Value.vint 65, none, none, none⟩,
        ⟨7, Value.vint 66, none, none, none⟩] = Except.ok (s, root) ∧
      ∀ i j, i < 2 → j < 2 → i ≠ j →
        ∃ ci cj, code s i = Except.ok ci ∧ code s j = Except.ok cj ∧
          ci ≠ [] ∧ (∀ ch ∈ ci, ch = '0' ∨ ch = '1') ∧
          ¬ isPrefOf ci cj :=
  build_tree_codes_prefix_free
    [⟨3, Value.vint 65, none, none, none⟩,
      ⟨7, Value.vint 66, none, none, none⟩]
    (by simp)
    (by
      intro n hn
      simp only [List.mem_cons, List.mem_singleton] at hn
      rcases hn with rfl | hn
      · exact ⟨rfl, rfl, rfl⟩
      · simp only [List.not_mem_nil, or_false] at hn
        subst hn
        exact ⟨rfl, rfl, rfl⟩)

/-- Claim C4: `combine l r` creates a new node of weight exactly
`l.weight + r.weight` with `l` as left child and `r` as right child; the
only mutation of `l` and `r` is setting their `parent` field to the new
node (the record updates keep every other field), and every other node in
the arena is untouched. -/
theorem combine_weight_and_frame (s : List HuffmanNode) (l r : Nat)
    (hl : l < s.length) (hr : r < s.length) (hlr : l ≠ r) :
    (combine s l r).2 = s.length ∧
    (combine s l r).1.length = s.length + 1 ∧
    getN (combine s l r).1 (combine s l r).2 =
      ⟨(getN s l).weight + (getN s r).weight, Value.vnone,
        some l, some r, none⟩ ∧
    getN (combine s l r).1 l =
      { getN s l with parent := some (combine s l r).2 } ∧
    getN (combine s l r).1 r =
      { getN s r with parent := some (combine s l r).2 } ∧
    (∀ j, j < s.length → j ≠ l → j ≠ r →
      getN (combine s l r).1 j = getN s j) :=
  ⟨rfl, combine_length s l r, combine_getN_new hl hr,
    combine_getN_left hl hlr, combine_getN_right hr hlr,
    fun j hj hjl hjr => combine_getN_old hjl hjr hj⟩

/-- Witness for C4 on a concrete two-node arena. -/
theorem combine_weight_and_frame_witness :
    (combine [⟨3, Value.vint 65, none, none, none⟩,
      ⟨7, Value.vint 66, none, none, none⟩] 0 1).2 = 2 ∧
    (combine [⟨3, Value.vint 65, none, none, none⟩,
      ⟨7, Value.vint 66, none, none, none⟩] 0 1).1.length = 2 + 1 ∧
    getN (combine [⟨3, Value.vint 65, none, none, none⟩,
      ⟨7, Value.vint 66, none, none, none⟩] 0 1).1
      (combine [⟨3, Value.vint 65, none, none, none⟩,
        ⟨7, Value.vint 66, none, none, none⟩] 0 1).2 =
      ⟨(getN [⟨3, Value.vint 65, none, none, none⟩,
        ⟨7, Value.vint 66, none, none, none⟩] 0).weight +
        (getN [⟨3, Value.vint 65, none, none, none⟩,
          ⟨7, Value.vint 66, none, none, none⟩] 1).weight, Value.vnone,
        some 0, some 1, none⟩ ∧
    getN (combine [⟨3, Value.vint 65, none, none, none⟩,
      ⟨7, Value.vint 66, none, none, none⟩] 0 1).1 0 =
      { getN [⟨3, Value.vint 65, none, none, none⟩,
          ⟨7, Value.vint 66, none, none, none⟩] 0 with
        parent := some (combine [⟨3, Value.vint 65, none, none, none⟩,
          ⟨7, Value.vint 66, none, none, none⟩] 0 1).2 } ∧
    getN (combine [⟨3, Value.vint 65, none, none, none⟩,
      ⟨7, Value.vint 66, none, none, none⟩] 0 1).1 1 =
      { getN [⟨3, Value.vint 65, none, none, none⟩,
          ⟨7, Value.vint 66, none, none, none⟩] 1 with
        parent := some (combine [⟨3, Value.vint 65, none, none, none⟩,
          ⟨7, Value.vint 66, none, none, none⟩] 0 1).2 } ∧
    (∀ j, j < 2 → j ≠ 0 → j ≠ 1 →
      getN (combine [⟨3, Value.vint 65, none, none, none⟩,
        ⟨7, Value.vint 66, none, none, none⟩] 0 1).1 j =
      getN [⟨3, Value.vint 65, none, none, none⟩,
        ⟨7, Value.vint 66, none, none, none⟩] j) :=
  combine_weight_and_frame
    [⟨3, Value.vint 65, none, none, none⟩,
      ⟨7, Value.vint 66, none, none, none⟩] 0 1
    (by simp) (by simp) (by simp)

/-- Claim C5: `build_tree` on the empty list fails with `IndexError` (the
first `heappop` on an empty queue), the arena carried at failure time is
the untouched input (no mutation happened before the failure), and no
`ok` result (sentinel) is produced. -/
theorem build_tree_empty_input :
    build_tree ([] : List HuffmanNode) =
      Except.error (PyError.indexError, []) ∧
    ∀ out, build_tree ([] : List HuffmanNode) ≠ Except.ok out :=
  ⟨rfl, fun _ h => nomatch h⟩

/-- Claim C8: `build_tree` on a single leaf returns that node unchanged
(arena still `[nd]`, root id 0, so parent and children untouched), and its
`code` is the empty string. -/
theorem build_tree_singleton (nd : HuffmanNode) (hl : nd.left = none)
    (hr : nd.right = none) (hp : nd.parent = none) :
    build_tree [nd] = Except.ok ([nd], 0) ∧
    code [nd] 0 = Except.ok [] := by
  have hget : getN [nd] 0 = nd := rfl
  constructor
  · have hq : initQ [nd] = [(0, 0)] := rfl
    show buildLoop 2 [nd] (initQ [nd]) 1 = Except.ok ([nd], 0)
    rw [hq]
    simp [buildLoop, popMin]
  · have hleaf : (getN [nd] 0).is_leaf = true := by
      rw [hget]
      exact is_leaf_iff.mpr ⟨hl, hr⟩
    rw [code, if_pos (by rw [hleaf])]
    have hcw : codeWalk [nd] (([nd] : List HuffmanNode).length + 1) 0 =
        some [] := by
      simp [codeWalk, hget, hp]
    rw [hcw]

/-- Witness for C8 at the node `(weight 5, value "A")`. -/
theorem build_tree_singleton_witness :
    build_tree [⟨5, Value.vint 65, none, none, none⟩] =
      Except.ok ([⟨5, Value.vint 65, none, none, none⟩], 0) ∧
    code [⟨5, Value.vint 65, none, none, none⟩] 0 = Except.ok [] :=
  build_tree_singleton ⟨5, Value.vint 65, none, none, none⟩ rfl rfl rfl

/-- Counterexample to claim C9 as stated: comparing a node for equality
or inequality against an operand with no `weight` attribute does NOT
raise any error; `__eq__` silently returns `False` and `__ne__` silently
returns `True`. -/
theorem eq_ne_silent_counterexample :
    eq_op ⟨1, Value.vnone, none, none, none⟩ ⟨none⟩ = Except.ok false ∧
    ne_op ⟨1, Value.vnone, none, none, none⟩ ⟨none⟩ = Except.ok true :=
  ⟨rfl, rfl⟩

/-- Claim C9 (amended): the ordering comparisons `<`, `<=`, `>`, `>=`
report an error when the operand's `weight` is absent (`AttributeError`)
or not comparable with an int (`TypeError`); but `__eq__` and `__ne__`
detect the missing or non-comparable `weight` and silently report the
operands unequal (`False` / `True`) instead of raising. -/
theorem comparison_error_behavior (self : HuffmanNode) (other : PyObj) :
    (other.weight = none →
      lt_op self other = Except.error PyError.attributeError ∧
      le_op self other = Except.error PyError.attributeError ∧
      gt_op self other = Except.error PyError.attributeError ∧
      ge_op self other = Except.error PyError.attributeError ∧
      eq_op self other = Except.ok false ∧
      ne_op self other = Except.ok true) ∧
    (∀ v, other.weight = some v → (∀ z : Int, v ≠ Value.vint z) →
      lt_op self other = Except.error PyError.typeError ∧
      le_op self other = Except.error PyError.typeError ∧
      gt_op self other = Except.error PyError.typeError ∧
      ge_op self other = Except.error PyError.typeError ∧
      eq_op self other = Except.ok false ∧
      ne_op self other = Except.ok true) := by
  constructor
  · intro h
    exact ⟨by simp [lt_op, h], by simp [le_op, h], by simp [gt_op, h],
      by simp [ge_op, h], by simp [eq_op, h], by simp [ne_op, h]⟩
  · intro v hv hnv
    cases v with
    | vnone =>
      exact ⟨by simp [lt_op, hv, pyIntLtVal], by simp [le_op, hv],
        by simp [gt_op, hv], by simp [ge_op, hv],
        by simp [eq_op, hv, pyIntEqVal], by simp [ne_op, hv, pyIntEqVal]⟩
    | vint z => exact absurd rfl (hnv z)
    | vstr str =>
      exact ⟨by simp [lt_op, hv, pyIntLtVal], by simp [le_op, hv],
        by simp [gt_op, hv], by simp [ge_op, hv],
        by simp [eq_op, hv, pyIntEqVal], by simp [ne_op, hv, pyIntEqVal]⟩

/-- Witness for the amended C9: a node compared against an object without
`weight`, and against one whose `weight` is a string. -/
theorem comparison_error_behavior_witness :
    (lt_op ⟨1, Value.vnone, none, none, none⟩ ⟨none⟩ =
      Except.error PyError.attributeError ∧
     le_op ⟨1, Value.vnone, none, none, none⟩ ⟨none⟩ =
      Except.error PyError.attributeError ∧
     gt_op ⟨1, Value.vnone, none, none, none⟩ ⟨none⟩ =
      Except.error PyError.attributeError ∧
     ge_op ⟨1, Value.vnone, none, none, none⟩ ⟨none⟩ =
      Except.error PyError.attributeError ∧
     eq_op ⟨1, Value.vnone, none, none, none⟩ ⟨none⟩ = Except.ok false ∧
     ne_op ⟨1, Value.vnone, none, none, none⟩ ⟨none⟩ = Except.ok true) ∧
    (lt_op ⟨1, Value.vnone, none, none, none⟩ ⟨some (Value.vstr "x")⟩ =
      Except.error PyError.typeError ∧
     le_op ⟨1, Value.vnone, none, none, none⟩ ⟨some (Value.vstr "x")⟩ =
      Except.error PyError.typeError ∧
     gt_op ⟨1, Value.vnone, none, none, none⟩ ⟨some (Value.vstr "x")⟩ =
      Except.error PyError.typeError ∧
     ge_op ⟨1, Value.vnone, none, none, none⟩ ⟨some (Value.vstr "x")⟩ =
      Except.error PyError.typeError ∧
     eq_op ⟨1, Value.vnone, none, none, none⟩ ⟨some (Value.vstr "x")⟩ =
      Except.ok false ∧
     ne_op ⟨1, Value.vnone, none, none, none⟩ ⟨some (Value.vstr "x")⟩ =
      Except.ok true) :=
  ⟨(comparison_error_behavior ⟨1, Value.vnone, none, none, none⟩
      ⟨none⟩).1 rfl,
   (comparison_error_behavior ⟨1, Value.vnone, none, none, none⟩
      ⟨some (Value.vstr "x")⟩).2 (Value.vstr "x") rfl
      (fun z h => nomatch h)⟩

/-- Claim C10: `__hash__` returns the `value` field directly, so calling
`hash` succeeds exactly on int-valued nodes; on a `None`-valued node (in
particular every internal node produced by `combine`) or a string-valued
node it raises `TypeError`; and the hash ignores `weight` and identity
(two different-weight nodes with the same value collide). -/
theorem hash_returns_value_directly :
    (∀ n : HuffmanNode, hash_op n = n.value) ∧
    (∀ n : HuffmanNode, n.value = Value.vnone →
      pyHashCall n = Except.error PyError.typeError) ∧
    (∀ (n : HuffmanNode) (str : String), n.value = Value.vstr str →
      pyHashCall n = Except.error PyError.typeError) ∧
    (∀ (n : HuffmanNode) (z : Int), n.value = Value.vint z →
      pyHashCall n = Except.ok z) ∧
    (∀ (s : List HuffmanNode) (l r : Nat), l < s.length → r < s.length →
      pyHashCall (getN (combine s l r).1 (combine s l r).2) =
        Except.error PyError.typeError) ∧
    (∃ n1 n2 : HuffmanNode, n1.weight ≠ n2.weight ∧
      hash_op n1 = hash_op n2) := by
  refine ⟨fun n => rfl, ?_, ?_, ?_, ?_, ?_⟩
  · intro n h
    simp [pyHashCall, hash_op, h]
  · intro n str h
    simp [pyHashCall, hash_op, h]
  · intro n z h
    simp [pyHashCall, hash_op, h]
  · intro s l r hl hr
    rw [combine_snd, combine_getN_new hl hr]
    rfl
  · exact ⟨⟨1, Value.vint 0, none, none, none⟩,
      ⟨2, Value.vint 0, none, none, none⟩, by simp, rfl⟩

/-- Witness for C10: hashing an internal node built by `combine` over a
concrete arena fails with `TypeError`; hashing an int-valued node returns
that int. -/
theorem hash_returns_value_directly_witness :
    pyHashCall (getN (combine [⟨3, Value.vint 65, none, none, none⟩,
      ⟨7, Value.vint 66, none, none, none⟩] 0 1).1
      (combine [⟨3, Value.vint 65, none, none, none⟩,
        ⟨7, Value.vint 66, none, none, none⟩] 0 1).2) =
      Except.error PyError.typeError ∧
    pyHashCall ⟨3, Value.vint 65, none, none, none⟩ = Except.ok 65 :=
  ⟨hash_returns_value_directly.2.2.2.2.1
      [⟨3, Value.vint 65, none, none, none⟩,
        ⟨7, Value.vint 66, none, none, none⟩] 0 1 (by simp) (by simp),
   hash_returns_value_directly.2.2.2.1
      ⟨3, Value.vint 65, none, none, none⟩ 65 rfl⟩

/-- Claim C6: on arenas whose parent pointers are well-formed (as all
arenas produced by `build_tree` are), `code` fails with the invalid-state
`AttributeError` exactly on non-leaves and succeeds exactly on leaves;
`direction_from_parent` fails with `AttributeError` exactly on nodes
without a parent; on a node with parent `p` it returns `'0'` iff
`p.left is self` (id equality = Python identity) and `'1'` otherwise; and
the decision is by identity, not value equality: two children with
completely equal field values still get the two different directions. -/
theorem code_direction_invalid_state :
    (∀ s i, ParentWF s →
      ((∃ w, code s i = Except.ok w) ↔ (getN s i).is_leaf = true) ∧
      (code s i = Except.error PyError.attributeError ↔
        (getN s i).is_leaf = false)) ∧
    (∀ s i,
      ((∃ ch, direction_from_parent s i = Except.ok ch) ↔
        (getN s i).parent ≠ none) ∧
      (direction_from_parent s i = Except.error PyError.attributeError ↔
        (getN s i).parent = none)) ∧
    (∀ s i p, (getN s i).parent = some p →
      ((getN s p).left = some i →
        direction_from_parent s i = Except.ok '0') ∧
      (¬ (getN s p).left = some i →
        direction_from_parent s i = Except.ok '1')) ∧
    (∃ s : List HuffmanNode, getN s 0 = getN s 1 ∧
      (getN s 2).left = some 0 ∧ (getN s 2).right = some 1 ∧
      direction_from_parent s 0 = Except.ok '0' ∧
      direction_from_parent s 1 = Except.ok '1') := by
  refine ⟨fun s i hwf => code_ok_iff hwf i, ?_, ?_, ?_⟩
  · intro s i
    cases hp : (getN s i).parent with
    | none =>
      constructor
      · constructor
        · rintro ⟨ch, hch⟩
          rw [direction_from_parent, hp] at hch
          cases hch
        · intro h; exact absurd rfl h
      · constructor
        · intro _; rfl
        · intro _; rw [direction_from_parent, hp]
    | some p =>
      constructor
      · constructor
        · intro _; simp
        · intro _
          rw [direction_from_parent, hp]
          exact ⟨dirChar s p i, rfl⟩
      · constructor
        · intro h
          rw [direction_from_parent, hp] at h
          cases h
        · intro h; cases h
  · intro s i p hp
    constructor
    · intro hli
      rw [direction_from_parent, hp]
      show Except.ok (dirChar s p i) = Except.ok '0'
      unfold dirChar
      rw [if_pos hli]
    · intro hli
      rw [direction_from_parent, hp]
      show Except.ok (dirChar s p i) = Except.ok '1'
      unfold dirChar
      rw [if_neg hli]
  · refine ⟨[⟨1, Value.vnone, none, none, some 2⟩,
      ⟨1, Value.vnone, none, none, some 2⟩,
      ⟨2, Value.vnone, some 0, some 1, none⟩], rfl, rfl, rfl, rfl, rfl⟩

/-- Witness for C6 on a concrete arena: a two-leaf tree where `code`
succeeds on the leaves, fails on the internal root, and
`direction_from_parent` fails exactly on the parentless root. -/
theorem code_direction_invalid_state_witness :
    ((∃ w, code [⟨3, Value.vnone, none, none, some 2⟩,
        ⟨7, Value.vnone, none, none, some 2⟩,
        ⟨10, Value.vnone, some 0, some 1, none⟩] 0 = Except.ok w) ↔
      (getN [⟨3, Value.vnone, none, none, some 2⟩,
        ⟨7, Value.vnone, none, none, some 2⟩,
        ⟨10, Value.vnone, some 0, some 1, none⟩] 0).is_leaf = true) ∧
    (code [⟨3, Value.vnone, none, none, some 2⟩,
        ⟨7, Value.vnone, none, none, some 2⟩,
        ⟨10, Value.vnone, some 0, some 1, none⟩] 0 =
      Except.error PyError.attributeError ↔
      (getN [⟨3, Value.vnone, none, none, some 2⟩,
        ⟨7, Value.vnone, none, none, some 2⟩,
        ⟨10, Value.vnone, some 0, some 1, none⟩] 0).is_leaf = false) :=
  code_direction_invalid_state.1
    [⟨3, Value.vnone, none, none, some 2⟩,
      ⟨7, Value.vnone, none, none, some 2⟩,
      ⟨10, Value.vnone, some 0, some 1, none⟩] 0
    (by
      intro i hi p hp
      simp only [List.length_cons, List.length_nil] at hi
      interval_cases i <;> simp_all [getN] <;> omega)

theorem reach_counter_inv {ns s : List HuffmanNode}
    {q : List (Nat × Nat)} {c : Nat} (h : Reach ns s q c) :
    c = s.length ∧ (q.map Prod.snd).Nodup ∧ ∀ e ∈ q, e.2 < c := by
  induction h with
  | init =>
    refine ⟨rfl, ?_, ?_⟩
    · rw [initQ_map_snd]
      exact List.nodup_range _
    · intro e he
      simp only [initQ, List.mem_map, List.mem_range] at he
      obtain ⟨i, hi, rfl⟩ := he
      exact hi
  | @step s q q1 q2 c l r hreach h1 h2 ih =>
    obtain ⟨hc, hnd, hbd⟩ := ih
    have hqperm : q.Perm (l :: r :: q2) :=
      (popMin_perm h1).trans ((popMin_perm h2).cons l)
    have hsperm : (q.map Prod.snd).Perm (l.2 :: r.2 :: q2.map Prod.snd) := by
      simpa using hqperm.map Prod.snd
    have hnd2 : (q2.map Prod.snd).Nodup :=
      ((hsperm.nodup_iff.mp hnd).of_cons).of_cons
    have hmemq : ∀ e ∈ q2, e ∈ q := fun e he =>
      hqperm.mem_iff.mpr
        (List.mem_cons_of_mem _ (List.mem_cons_of_mem _ he))
    refine ⟨?_, ?_, ?_⟩
    · rw [combine_length]
      omega
    · rw [List.map_append]
      simp only [List.map_cons, List.map_nil]
      refine List.Nodup.append hnd2 (List.nodup_singleton _) ?_
      intro a ha hb
      simp only [List.mem_singleton] at hb
      subst hb
      obtain ⟨e, he, heq⟩ := List.mem_map.mp ha
      have := hbd e (hmemq e he)
      omega
    · intro e he
      rcases List.mem_append.mp he with he | he
      · have := hbd e (hmemq e he)
        omega
      · simp only [List.mem_singleton] at he
        subst he
        omega

/-- Claim C2: a pop from the queue returns an element of minimal weight,
ties broken by least insertion sequence number; the initial queue assigns
sequence numbers `0 .. n-1` (counter from 0, one per insertion); and in
every state the loop reaches, the counter equals the number of insertions
performed so far (`= arena size`, since merge insertions allocate), with
all live sequence numbers distinct and below the counter. -/
theorem queue_min_pop_and_counter :
    (∀ (s : List HuffmanNode) (q q' : List (Nat × Nat)) (e : Nat × Nat),
      popMin s q = some (e, q') →
      e ∈ q ∧ q.Perm (e :: q') ∧
      ∀ y ∈ q, (getN s e.1).weight < (getN s y.1).weight ∨
        ((getN s e.1).weight = (getN s y.1).weight ∧ e.2 ≤ y.2)) ∧
    (∀ ns : List HuffmanNode,
      (initQ ns).map Prod.snd = List.range ns.length) ∧
    (∀ (ns s : List HuffmanNode) (q : List (Nat × Nat)) (c : Nat),
      Reach ns s q c → c = s.length ∧ (q.map Prod.snd).Nodup ∧
        ∀ e ∈ q, e.2 < c) := by
  refine ⟨?_, initQ_map_snd, fun ns s q c h => reach_counter_inv h⟩
  intro s q q' e h
  refine ⟨popMin_mem h, popMin_perm h, ?_⟩
  intro y hy
  have hk := popMin_min h y hy
  unfold keyLe at hk
  exact hk

/-- Witness for C2: popping the concrete queue `[(0,0), (1,1)]` over the
two-node arena, and the initial `Reach` state of a singleton input. -/
theorem queue_min_pop_and_counter_witness :
    ((0, 0) ∈ [((0 : Nat), (0 : Nat)), (1, 1)] ∧
      [((0 : Nat), (0 : Nat)), (1, 1)].Perm ((0, 0) :: [(1, 1)]) ∧
      ∀ y ∈ [((0 : Nat), (0 : Nat)), (1, 1)],
        (getN [⟨3, Value.vint 65, none, none, none⟩,
          ⟨7, Value.vint 66, none, none, none⟩] (0, 0).1).weight <
          (getN [⟨3, Value.vint 65, none, none, none⟩,
            ⟨7, Value.vint 66, none, none, none⟩] y.1).weight ∨
        ((getN [⟨3, Value.vint 65, none, none, none⟩,
          ⟨7, Value.vint 66, none, none, none⟩] (0, 0).1).weight =
          (getN [⟨3, Value.vint 65, none, none, none⟩,
            ⟨7, Value.vint 66, none, none, none⟩] y.1).weight ∧
          (0, 0).2 ≤ y.2)) ∧
    (1 = ([⟨5, Value.vint 65, none, none, none⟩] :
        List HuffmanNode).length ∧
      ((initQ [⟨5, Value.vint 65, none, none, none⟩]).map Prod.snd).Nodup ∧
      ∀ e ∈ initQ [⟨5, Value.vint 65, none, none, none⟩], e.2 < 1) :=
  ⟨queue_min_pop_and_counter.1
      [⟨3, Value.vint 65, none, none, none⟩,
        ⟨7, Value.vint 66, none, none, none⟩]
      [(0, 0), (1, 1)] [(1, 1)] (0, 0) rfl,
   queue_min_pop_and_counter.2.2
      [⟨5, Value.vint 65, none, none, none⟩]
      [⟨5, Value.vint 65, none, none, none⟩]
      (initQ [⟨5, Value.vint 65, none, none, none⟩]) 1 Reach.init⟩

theorem nodup_map_inj {α β : Type} {f : α → β} {q : List α}
    (hnd : (q.map f).Nodup) :
    ∀ a ∈ q, ∀ b ∈ q, f a = f b → a = b := by
  induction q with
  | nil => intro a ha; simp at ha
  | cons x xs ih =>
    simp only [List.map_cons, List.nodup_cons] at hnd
    obtain ⟨hx, hnd2⟩ := hnd
    intro a ha b hb heq
    rcases List.mem_cons.mp ha with ha1 | ha2
    · rcases List.mem_cons.mp hb with hb1 | hb2
      · rw [ha1, hb1]
      · exfalso
        apply hx
        have hfb : f x = f b := by rw [← ha1]; exact heq
        rw [hfb]
        exact List.mem_map_of_mem f hb2
    · rcases List.mem_cons.mp hb with hb1 | hb2
      · exfalso
        apply hx
        have hfa : f x = f a := by rw [← hb1]; exact heq.symm
        rw [hfa]
        exact List.mem_map_of_mem f ha2
      · exact ih hnd2 a ha2 b hb2 heq

theorem popRel_unique {s : List HuffmanNode}
    {q q' qa qb : List (Nat × Nat)} {e e' : Nat × Nat}
    (h1 : PopRel s q e qa) (h2 : PopRel s q' e' qb) (hperm : q.Perm q')
    (hnd : (q.map Prod.snd).Nodup) : e = e' ∧ qa.Perm qb := by
  obtain ⟨hmem1, hmin1, hp1⟩ := h1
  obtain ⟨hmem2, hmin2, hp2⟩ := h2
  have hmem2q : e' ∈ q := hperm.mem_iff.mpr hmem2
  have hmem1q2 : e ∈ q' := hperm.mem_iff.mp hmem1
  have hle1 : keyLe s e e' := hmin1 e' hmem2q
  have hle2 : keyLe s e' e := hmin2 e hmem1q2
  have hee : e.2 = e'.2 := by
    unfold keyLe at hle1 hle2
    omega
  have he : e = e' := nodup_map_inj hnd e hmem1 e' hmem2q hee
  subst he
  have hcons : (e :: qa).Perm (e :: qb) := hp1.symm.trans (hperm.trans hp2)
  exact ⟨rfl, hcons.cons_inv⟩

theorem buildRel_det {s : List HuffmanNode} {q : List (Nat × Nat)}
    {c : Nat} {out : List HuffmanNode × Nat} (h1 : BuildRel s q c out) :
    ∀ qq out2, q.Perm qq → (q.map Prod.snd).Nodup →
    (∀ e ∈ q, e.2 < c) → BuildRel s qq c out2 → out = out2 := by
  induction h1 with
  | @root s q c l hpop =>
    intro qq out2 hperm hnd hbd h2
    cases h2 with
    | @root _ _ _ l2 hpop2 =>
      obtain ⟨he, _⟩ := popRel_unique hpop hpop2 hperm hnd
      rw [he]
    | @step _ _ q1b q2b _ l2 r2 _ hpop2 hpop3 h3 =>
      obtain ⟨he, hq⟩ := popRel_unique hpop hpop2 hperm hnd
      have hq1b : q1b = [] := List.Perm.eq_nil hq.symm
      subst hq1b
      exact absurd hpop3.1 (List.not_mem_nil _)
  | @step s q q1 q2 c l r out hpopl hpopr hrec ih =>
    intro qq out2 hperm hnd hbd h2
    cases h2 with
    | @root _ _ _ l2 hpop2 =>
      obtain ⟨he, hq⟩ := popRel_unique hpopl hpop2 hperm hnd
      have hq1 : q1 = [] := List.Perm.eq_nil hq
      rw [hq1] at hpopr
      exact absurd hpopr.1 (List.not_mem_nil _)
    | @step _ _ q1b q2b _ l2 r2 out2b hpop2 hpop3 h3 =>
      obtain ⟨hel, hq1⟩ := popRel_unique hpopl hpop2 hperm hnd
      subst hel
      have hndq : (q.map Prod.snd).Perm (l.2 :: q1.map Prod.snd) := by
        simpa using hpopl.2.2.map Prod.snd
      have hnd1 : (q1.map Prod.snd).Nodup := (hndq.nodup_iff.mp hnd).of_cons
      obtain ⟨her, hq2⟩ := popRel_unique hpopr hpop3 hq1 hnd1
      subst her
      have hbd1 : ∀ e ∈ q1, e.2 < c := fun e he =>
        hbd e (hpopl.2.2.mem_iff.mpr (List.mem_cons_of_mem _ he))
      have hbd2a : ∀ e ∈ q2, e.2 < c := fun e he =>
        hbd1 e (hpopr.2.2.mem_iff.mpr (List.mem_cons_of_mem _ he))
      have hbd2 : ∀ e ∈ q2 ++ [((combine s l.1 r.1).2, c)],
          e.2 < c + 1 := by
        intro e he
        rcases List.mem_append.mp he with he | he
        · have := hbd2a e he
          omega
        · simp only [List.mem_singleton] at he
          subst he
          omega
      have hnd2 : ((q2 ++ [((combine s l.1 r.1).2, c)]).map
          Prod.snd).Nodup := by
        have hndq1 : (q1.map Prod.snd).Perm (r.2 :: q2.map Prod.snd) := by
          simpa using hpopr.2.2.map Prod.snd
        have hnd2b : (q2.map Prod.snd).Nodup :=
          (hndq1.nodup_iff.mp hnd1).of_cons
        rw [List.map_append]
        simp only [List.map_cons, List.map_nil]
        refine List.Nodup.append hnd2b (List.nodup_singleton _) ?_
        intro a ha hb
        simp only [List.mem_singleton] at hb
        subst hb
        obtain ⟨e, he, heq⟩ := List.mem_map.mp ha
        have := hbd2a e he
        omega
      exact ih _ _ (hq2.append_right _) hnd2 hbd2 h3

theorem buildLoop_buildRel :
    ∀ fuel (s : List HuffmanNode) (q : List (Nat × Nat)) (c : Nat)
    (out : List HuffmanNode × Nat),
    buildLoop fuel s q c = Except.ok out → BuildRel s q c out := by
  intro fuel
  induction fuel with
  | zero =>
    intro s q c out h
    simp [buildLoop] at h
  | succ fuel ih =>
    intro s q c out h
    cases hq1 : popMin s q with
    | none => simp [buildLoop, hq1] at h
    | some p1 =>
      obtain ⟨l, q1⟩ := p1
      cases hq2 : popMin s q1 with
      | none =>
        have hq1nil : q1 = [] := popMin_eq_none.mp hq2
        subst hq1nil
        simp only [buildLoop, hq1, hq2] at h
        injection h with h
        subst h
        exact BuildRel.root (popMin_popRel hq1)
      | some p2 =>
        obtain ⟨r, q2⟩ := p2
        simp only [buildLoop, hq1, hq2] at h
        exact BuildRel.step (popMin_popRel hq1) (popMin_popRel hq2)
          (ih _ _ _ _ h)

/-- Claim C7: the computation of `build_tree` refines the relation
`BuildRel`, in which the heap is specified only by "pop some minimal
element"; and from the initial state of any input sequence `BuildRel`
produces exactly one result — so any two runs (any two heap
implementations, or the same one twice) return equal arenas and roots,
hence identical tree shapes and identical `code` strings everywhere. -/
theorem build_tree_deterministic :
    (∀ (ns : List HuffmanNode) (out : List HuffmanNode × Nat),
      build_tree ns = Except.ok out →
      BuildRel ns (initQ ns) ns.length out) ∧
    (∀ (ns : List HuffmanNode) (out1 out2 : List HuffmanNode × Nat),
      BuildRel ns (initQ ns) ns.length out1 →
      BuildRel ns (initQ ns) ns.length out2 →
      out1 = out2 ∧ ∀ i, code out1.1 i = code out2.1 i) := by
  constructor
  · intro ns out h
    exact buildLoop_buildRel _ _ _ _ _ h
  · intro ns out1 out2 h1 h2
    have hnd : ((initQ ns).map Prod.snd).Nodup := by
      rw [initQ_map_snd]
      exact List.nodup_range _
    have hbd : ∀ e ∈ initQ ns, e.2 < ns.length := by
      intro e he
      simp only [initQ, List.mem_map, List.mem_range] at he
      obtain ⟨i, hi, rfl⟩ := he
      exact hi
    have heq := buildRel_det h1 (initQ ns) out2 (List.Perm.refl _) hnd hbd h2
    exact ⟨heq, fun i => by rw [heq]⟩

/-- Witness for C7: the singleton run, related to itself. -/
theorem build_tree_deterministic_witness :
    BuildRel [⟨5, Value.vint 65, none, none, none⟩]
      (initQ [⟨5, Value.vint 65, none, none, none⟩]) 1
      ([⟨5, Value.vint 65, none, none, none⟩], 0) ∧
    (([⟨5, Value.vint 65, none, none, none⟩], 0) =
      (([⟨5, Value.vint 65, none, none, none⟩] : List HuffmanNode), 0) ∧
      ∀ i, code [⟨5, Value.vint 65, none, none, none⟩] i =
        code [⟨5, Value.vint 65, none, none, none⟩] i) := by
  have h1 := build_tree_deterministic.1
    [⟨5, Value.vint 65, none, none, none⟩]
    ([⟨5, Value.vint 65, none, none, none⟩], 0) rfl
  exact ⟨h1, build_tree_deterministic.2 _ _ _ h1 h1⟩

